import Mathlib

/-!
Verification of the SkillScope skill-assessment pipeline
(`app.py`, `modules/skill_normalizer.py`, `modules/test_generator.py`,
`modules/input_handler.py`) against its natural-language specification.

Python strings are modelled as Lean `String` (lists of characters);
Python exceptions as `Except Unit` / `Option`; the external rapidfuzz
scorer and the file system as explicitly documented models.
-/

/-- The ASCII whitespace characters removed by Python's `str.strip()`. -/
def isPySpace (c : Char) : Bool :=
  c == ' ' || c == '\t' || c == '\n' || c == '\r' || c == '\x0b' || c == '\x0c'

/-- `str.strip()` on a character list: drop leading whitespace, then trailing. -/
def stripL (l : List Char) : List Char :=
  ((l.dropWhile isPySpace).reverse.dropWhile isPySpace).reverse

/-- `str.strip()`. -/
def pyStrip (s : String) : String := ⟨stripL s.data⟩

/-- `str.lower()` on a character list (ASCII). -/
def lowerL (l : List Char) : List Char := l.map Char.toLower

/-- `str.lower()`. -/
def pyLower (s : String) : String := ⟨lowerL s.data⟩

/-- `str.upper()`. -/
def pyUpper (s : String) : String := ⟨s.data.map Char.toUpper⟩

/-- `str.split(sep)` for a one-character separator, on character lists. -/
def splitChar (sep : Char) : List Char → List (List Char)
  | [] => [[]]
  | c :: t =>
    if c == sep then [] :: splitChar sep t
    else
      match splitChar sep t with
      | [] => [[c]]
      | h :: r => (c :: h) :: r

/-- `text.split('\n')` on character lists. -/
def splitNlL (l : List Char) : List (List Char) := splitChar '\n' l

/-- `s.startswith(p)`: first argument is the string, second the candidate start. -/
def startsL : List Char → List Char → Bool
  | _, [] => true
  | [], _ :: _ => false
  | a :: as, b :: bs => a == b && startsL as bs

/-- Python's substring test `needle in hay` for strings. -/
def hasSubL (needle : List Char) : List Char → Bool
  | [] => startsL [] needle
  | c :: t => startsL (c :: t) needle || hasSubL needle t

/-- `s.split(sep, 1)[1]`: everything after the first occurrence of `sep`.
All call sites in the source guard that `sep` occurs (Python would raise
`IndexError` otherwise); absent a separator this model returns `[]`. -/
def afterFirstChar (sep : Char) : List Char → List Char
  | [] => []
  | c :: t => if c == sep then t else afterFirstChar sep t

/-- `s.split(sep)[-1]`: the segment after the last occurrence of `sep`
(the whole string when `sep` is absent). -/
def lastSeg (sep : Char) (l : List Char) : List Char :=
  (splitChar sep l).getLastD []

/-- Python's `c in 'abcd'` for a single character. -/
def isAbcd (c : Char) : Bool :=
  c == 'a' || c == 'b' || c == 'c' || c == 'd'

/-- Decimal digit characters, used to model Python's rendering of an `int`
inside an f-string. -/
def digitCharOf (n : Nat) : Char :=
  match n with
  | 0 => '0' | 1 => '1' | 2 => '2' | 3 => '3' | 4 => '4'
  | 5 => '5' | 6 => '6' | 7 => '7' | 8 => '8' | _ => '9'

/-- The decimal digits of a natural number, with explicit fuel so that the
definition is structurally recursive (`fuel ≥ n` makes the fuel-exhausted
first branch unreachable). -/
def natDigitsFuel : Nat → Nat → List Char
  | 0, n => [digitCharOf n]
  | fuel + 1, n =>
    if n < 10 then [digitCharOf n]
    else natDigitsFuel fuel (n / 10) ++ [digitCharOf (n % 10)]

/-- The decimal digits of a natural number (model of Python `f"{i}"`). -/
def natDigits (n : Nat) : List Char := natDigitsFuel n n

/-- Python `f"{i}"` for a natural number. -/
def natToStr (n : Nat) : String := ⟨natDigits n⟩

/-- A question record as produced by `app.parse_test_output`:
`{'question': ..., 'options': [...], 'correct_answer': ...}` where
`correct_answer` starts out as Python `None`. -/
structure PQuestion where
  question : String
  options : List String
  correct_answer : Option String
deriving DecidableEq, Repr

/-- `app.parse_test_output`, question-line test:
`line.lower().startswith('question') and ':' in line`. -/
def isQLine (line : List Char) : Bool :=
  startsL (lowerL line) ("question".data) && line.any (· == ':')

/-- `app.parse_test_output`, option-line test:
`len(line) > 2 and line[0].lower() in 'abcd' and line[1] in '.)'`. -/
def isOptLine (line : List Char) : Bool :=
  decide (2 < line.length) && isAbcd (line.headD ' ').toLower
    && (line.getD 1 ' ' == '.' || line.getD 1 ' ' == ')')

/-- Truthiness of the `correct_answer` field (`None` and `""` are falsy). -/
def caTruthy : Option String → Bool
  | none => false
  | some a => !(a == "")

/-- The flush performed by `app.parse_test_output` when a new question line
arrives: `if current_question and current_question.get('options')`, i.e. the
open question (a dict, always truthy) is appended whenever its options list
is non-empty — its text and `correct_answer` are not checked here. -/
def appFlushMid (out : List PQuestion) (cur : Option PQuestion) : List PQuestion :=
  match cur with
  | some q => if q.options.isEmpty then out else out ++ [q]
  | none => out

/-- The correct-answer branch of `app.parse_test_output`:
`correct_letter = line.split(':')[-1].strip().lower()`, and when the letter
is a non-empty substring of `'abcd'` and indexes an existing option, that
option's text becomes `correct_answer`.  The `.error` case models the
uncaught `TypeError` raised by `ord(correct_letter)` when the letter has
more than one character (Python's `in` is a substring test, so e.g. `"ab"`
passes the guard). -/
def appCALine (out : List PQuestion) (q : PQuestion) (line : List Char) :
    Except Unit (List PQuestion × Option PQuestion) :=
  if !(lowerL (stripL (lastSeg ':' line))).isEmpty
      && hasSubL (lowerL (stripL (lastSeg ':' line))) ("abcd".data) then
    match lowerL (stripL (lastSeg ':' line)) with
    | [c] =>
      if c.toNat - 97 < q.options.length then
        .ok (out, some { q with correct_answer := some (q.options.getD (c.toNat - 97) "") })
      else .ok (out, some q)
    | _ => .error ()
  else .ok (out, some q)

/-- One iteration of the `while` loop in `app.parse_test_output`, over the
state `(questions, current_question)`. -/
def appStep (st : List PQuestion × Option PQuestion) (line : List Char) :
    Except Unit (List PQuestion × Option PQuestion) :=
  if isQLine line then
    .ok (appFlushMid st.1 st.2, some ⟨⟨stripL (afterFirstChar ':' line)⟩, [], none⟩)
  else
    match st.2 with
    | none => .ok (st.1, none)
    | some q =>
      if isOptLine line then
        .ok (st.1, some { q with options := q.options ++ [⟨stripL (line.drop 3)⟩] })
      else if hasSubL ("correct answer:".data) (lowerL line) then
        appCALine st.1 q line
      else .ok (st.1, some q)

/-- The loop of `app.parse_test_output` over the preprocessed lines. -/
def appFold (st : List PQuestion × Option PQuestion) :
    List (List Char) → Except Unit (List PQuestion × Option PQuestion)
  | [] => .ok st
  | l :: ls =>
    match appStep st l with
    | .error e => .error e
    | .ok st' => appFold st' ls

/-- Line preprocessing of `app.parse_test_output`:
`[line.strip() for line in test_text.split('\n') if line.strip()]`. -/
def appLines (s : String) : List (List Char) :=
  ((splitNlL s.data).map stripL).filter (fun l => !l.isEmpty)

/-- The end-of-input flush of `app.parse_test_output`: the last open
question is appended only when it has options and a truthy
`correct_answer`. -/
def appFinish (res : Except Unit (List PQuestion × Option PQuestion)) :
    Except Unit (List PQuestion) :=
  match res with
  | .error e => .error e
  | .ok (out, cur) =>
    .ok
      (match cur with
       | some q =>
         if !q.options.isEmpty && caTruthy q.correct_answer then out ++ [q] else out
       | none => out)

/-- `app.parse_test_output`: parses raw test text into question records.
A `.error` result models an uncaught `TypeError` (see `appStep`). -/
def parse_test_output (s : String) : Except Unit (List PQuestion) :=
  appFinish (appFold ([], none) (appLines s))

/-- A question record as produced by `test_generator.parse_ollama_response`
and `test_generator.generate_fallback_question`: here `correct_answer`
holds an answer letter (`"a"`–`"d"`), not an option text. -/
structure OQuestion where
  question : String
  options : List String
  correct_answer : String
  skill : String
deriving DecidableEq, Repr

/-- `test_generator.parse_ollama_response`, option-line test:
`line and len(line) > 2 and line[0].lower() in 'abcd' and line[1] in '):'`. -/
def ogOptLine (line : List Char) : Bool :=
  !line.isEmpty && decide (2 < line.length) && isAbcd (line.headD ' ').toLower
    && (line.getD 1 ' ' == ')' || line.getD 1 ' ' == ':')

/-- One iteration of the `for` loop in `test_generator.parse_ollama_response`,
over state `(question_text, options, correct_answer)`.  The `.error` case
models the `TypeError` raised by `ord(answer_letter)` when the letter after
`"Correct Answer:"` is empty or a multi-character substring of `'abcd'`;
that exception is caught by the function's `except` clause. -/
def ogStep (st : List Char × List String × Option (List Char)) (rawLine : List Char) :
    Except Unit (List Char × List String × Option (List Char)) :=
  let line := stripL rawLine
  let qt := st.1
  let opts := st.2.1
  let ca := st.2.2
  if startsL (lowerL line) ("question:".data) then
    .ok (stripL (afterFirstChar ':' line), opts, ca)
  else if ogOptLine line then
    .ok (qt, opts ++ [⟨stripL (line.drop 3)⟩], ca)
  else if startsL (lowerL line) ("correct answer:".data) then
    let letter := lowerL (stripL (afterFirstChar ':' line))
    if hasSubL letter ("abcd".data) then
      match letter with
      | [c] =>
        if c.toNat - 97 < opts.length then .ok (qt, opts, some letter)
        else .ok (qt, opts, ca)
      | _ => .error ()
    else .ok (qt, opts, ca)
  else .ok (qt, opts, ca)

/-- The loop of `test_generator.parse_ollama_response`. -/
def ogFold (st : List Char × List String × Option (List Char)) :
    List (List Char) → Except Unit (List Char × List String × Option (List Char))
  | [] => .ok st
  | l :: ls =>
    match ogStep st l with
    | .error e => .error e
    | .ok st' => ogFold st' ls

/-- `test_generator.parse_ollama_response`: parses one generated block into a
question record, or `None`.  The `try/except` of the source maps every
internal exception to `None`, so this model is total. -/
def parse_ollama_response (response_text : String) (skill : String) : Option OQuestion :=
  match ogFold ([], [], none) (splitNlL (stripL response_text.data)) with
  | .error _ => none
  | .ok (qt, opts, ca) =>
    match ca with
    | some l =>
      if !qt.isEmpty && opts.length == 4 && !l.isEmpty then
        some ⟨⟨qt⟩, opts, ⟨l⟩, skill⟩
      else none
    | none => none

/-- The four `question_templates` of
`test_generator.generate_fallback_question`, as (question, options) pairs;
every template has `"correct": 0` (its first option is the correct one). -/
def fallbackTemplates (skill : String) : List (String × List String) :=
  let up := pyUpper skill
  [ ("What is a primary use case for " ++ up ++ " in modern software development?",
     ["Building scalable applications", "Managing version control systems",
      "Debugging and testing code", "Deploying applications to production"]),
    ("Which of the following best describes " ++ up ++ "?",
     ["A tool for improving developer productivity", "A framework for building web applications",
      "A database management system", "An operating system component"]),
    ("What is a key advantage of using " ++ up ++ "?",
     ["Improved code maintainability", "Better hardware performance",
      "Reduced network latency", "Enhanced graphic rendering"]),
    ("In which scenario would you typically use " ++ up ++ "?",
     ["When building modern software applications", "When designing hardware circuits",
      "When managing physical servers", "When creating design mockups"]) ]

/-- `test_generator.generate_fallback_question`.  The two uses of the `random`
module are passed in explicitly: `pick` models `random.choice` over the four
templates and `σ` models the permutation produced by `random.shuffle` of the
four options (`shuffled[j] = options[σ j]`).  The `question_number` argument
of the source is unused by its body and omitted.  `correct_letter` is
`chr(97 + shuffled.index(correct_answer_text))`. -/
def generate_fallback_question (skill : String) (pick : Fin 4) (σ : Equiv.Perm (Fin 4)) :
    OQuestion :=
  let tpl := (fallbackTemplates skill).getD pick.val ("", [])
  let correctText := tpl.2.getD 0 ""
  let shuffled := (List.finRange 4).map (fun j => tpl.2.getD (σ j).val "")
  let letterIdx := shuffled.indexOf correctText
  ⟨tpl.1, shuffled, ⟨[Char.ofNat (97 + letterIdx)]⟩, skill⟩

/-- `test_generator.generate_question_with_ollama`: `response = none` models
every external failure (connection refused, timeout, non-200 status), which
the source converts into a fallback question; a parsed `None` likewise falls
back. -/
def generate_question_with_ollama (skill : String) (response : Option String)
    (pick : Fin 4) (σ : Equiv.Perm (Fin 4)) : OQuestion :=
  match response with
  | none => generate_fallback_question skill pick σ
  | some text =>
    match parse_ollama_response text skill with
    | some q => q
    | none => generate_fallback_question skill pick σ

/-- The randomness consumed by one fallback question. -/
structure FallbackRand where
  pick : Fin 4
  shuffle : Equiv.Perm (Fin 4)
deriving DecidableEq

/-- The question-collection loop of `test_generator.generate_test`:
one question per skill, in order.  The source's `if question:` test is
always true because both generator paths return a non-empty dict, and its
`except` arm is unreachable because `generate_fallback_question` raises
nothing, so the loop reduces to a map. -/
def generate_test_questions (skills : List String) (ollamaAvailable : Bool)
    (response : Nat → Option String) (rnd : Nat → FallbackRand) : List OQuestion :=
  skills.enum.map (fun p =>
    if ollamaAvailable then
      generate_question_with_ollama p.2 (response p.1) (rnd p.1).pick (rnd p.1).shuffle
    else
      generate_fallback_question p.2 (rnd p.1).pick (rnd p.1).shuffle)

/-- The option lines of the display formatter in
`test_generator.generate_test`: `f"{chr(97+j)}) {option}\n"` for each option. -/
def optionLinesStr : Nat → List String → String
  | _, [] => ""
  | j, o :: os => ⟨[Char.ofNat (97 + j)]⟩ ++ ") " ++ o ++ "\n" ++ optionLinesStr (j + 1) os

/-- One formatted question block of `test_generator.generate_test`:
`f"Question {i}: {question}\n"`, the lettered option lines, then
`f"Correct Answer: {correct_answer}\n"`. -/
def formatQuestionBlock (i : Nat) (q : OQuestion) : String :=
  "Question " ++ natToStr i ++ ": " ++ q.question ++ "\n" ++ optionLinesStr 0 q.options
    ++ "Correct Answer: " ++ q.correct_answer ++ "\n"

/-- Python's `"\n".join(...)`. -/
def joinNlStr : List String → String
  | [] => ""
  | [s] => s
  | s :: ss => s ++ "\n" ++ joinNlStr ss

/-- The display formatting of `test_generator.generate_test`:
`"\n".join(formatted_questions)` with 1-based `enumerate`. -/
def format_test (questions : List OQuestion) : String :=
  joinNlStr (questions.enum.map (fun p => formatQuestionBlock (p.1 + 1) p.2))

/-- `test_generator.generate_test`.  `fileSkills` models
`load_normalized_skills()` (the parsed `normalized_skills.json`, `[]` when
the file is missing); the best-effort `save_test_data` persistence, which the
source explicitly allows to fail, is omitted.  The source's error strings are
prefixed by a mangled emoji, reproduced here as the plain text that follows
it. -/
def generate_test (skills fileSkills : List String) (ollamaAvailable : Bool)
    (response : Nat → Option String) (rnd : Nat → FallbackRand) : String :=
  let skills := if skills.isEmpty then fileSkills else skills
  if skills.isEmpty then " Error: No skills found. Please extract skills first."
  else format_test (generate_test_questions skills ollamaAvailable response rnd)


/-- Longest-common-subsequence length with explicit fuel, so that the
definition is structurally recursive; every recursive call shrinks the
combined length by at least one, so any `fuel ≥ len(a) + len(b)` computes
the true LCS length. -/
def lcsLenFuel : Nat → List Char → List Char → Nat
  | _, [], _ => 0
  | _, _ :: _, [] => 0
  | 0, _ :: _, _ :: _ => 0
  | fuel + 1, a :: as, b :: bs =>
    if a == b then lcsLenFuel fuel as bs + 1
    else max (lcsLenFuel fuel (a :: as) bs) (lcsLenFuel fuel as (b :: bs))

/-- Length of a longest common subsequence of two character lists; the
InDel edit distance underlying rapidfuzz's `fuzz.ratio` is
`len(a) + len(b) - 2 * lcsLen a b`. -/
def lcsLen (a b : List Char) : Nat := lcsLenFuel (a.length + b.length) a b

/-- Modelled from the external rapidfuzz `fuzz.ratio`, as an exact unreduced
fraction `(numerator, denominator)` on the 0–100 scale: the normalized InDel
similarity is `100 * (1 - dist/(len(a)+len(b))) = 200*lcs/(len(a)+len(b))`,
with the documented special case `ratio("", "") == 100`.  Fractions are kept
unreduced (denominators stay positive) and all later comparisons
cross-multiply, which is exact rational arithmetic. -/
def ratioPair (a b : List Char) : Nat × Nat :=
  if a.length + b.length = 0 then (100, 1)
  else (200 * lcsLen a b, a.length + b.length)

/-- Strict comparison of score fractions with positive denominators:
`p < q` as rational numbers. -/
def fracLt (p q : Nat × Nat) : Bool :=
  decide (p.1 * q.2 < q.1 * p.2)

/-- `t <= p` for an integer threshold `t` and a score fraction `p` with a
positive denominator. -/
def thresholdLe (t : Nat) (p : Nat × Nat) : Bool :=
  decide (t * p.2 ≤ p.1)

/-- All contiguous substrings of a character list. -/
def contSubs (l : List Char) : List (List Char) :=
  l.tails.flatMap List.inits

/-- Modelled from the external rapidfuzz `fuzz.partial_ratio`: the best
`fuzz.ratio` alignment of the shorter string against a contiguous substring
of the longer one, so that a string occurring as an exact substring of the
other scores 100.  The running maximum keeps the first representative on
ties, which does not change its rational value. -/
def bestWindowPair (a b : List Char) : Nat × Nat :=
  let needle := if a.length ≤ b.length then a else b
  let hay := if a.length ≤ b.length then b else a
  (contSubs hay).foldl
    (fun m w => if fracLt m (ratioPair needle w) then ratioPair needle w else m) (0, 1)

/-- `input_handler.InputHandler.extract_skills_from_text`: a skill from the
master list is kept when `process.extractOne(skill.lower(), [text.lower()],
scorer=fuzz.partial_ratio, score_cutoff=85)` reports a score `>= 85`.  The
source accumulates hits in a Python `set` and returns `list(found_skills)`;
this model returns the hits in master-list order, which realizes the same
set of found skills. -/
def extract_skills_from_text (text : String) (skills : List String) : List String :=
  if text.data.isEmpty || skills.isEmpty then []
  else
    skills.filter (fun sk =>
      thresholdLe 85 (bestWindowPair (lowerL sk.data) (lowerL text.data)))

/-- The static `ALIASES` dictionary of `skill_normalizer.py`. -/
def ALIASES : List (String × String) :=
  [("py", "Python"), ("python3", "Python"), ("python2", "Python"),
   ("reactjs", "React"), ("js", "JavaScript"), ("node", "Node.js"),
   ("ml", "Machine Learning"), ("ai", "Artificial Intelligence")]

/-- `skill_lower in ALIASES` plus the lookup `ALIASES[skill_lower]`. -/
def aliasLookup (s : String) : Option String :=
  (ALIASES.find? (fun p => p.1 == s)).map Prod.snd

/-- Modelled from the external rapidfuzz `process.extractOne` with scorer
`fuzz.partial_ratio` and no score cutoff: the best-scoring choice (earliest
on ties), or `None` when the choice list is empty. -/
def extractOne (query : List Char) (choices : List String) :
    Option (String × Nat × Nat) :=
  choices.foldl
    (fun acc c =>
      match acc with
      | none => some (c, bestWindowPair query c.data)
      | some (b, bs) =>
        if fracLt bs (bestWindowPair query c.data) then
          some (c, bestWindowPair query c.data)
        else some (b, bs))
    none

/-- The per-token body of the loop in `skill_normalizer.normalize_skills`:
alias lookup first, then fuzzy match against the lowercased master list and,
on success, emission of the first master entry with that lowercase form.
The `.error` case models the `TypeError` raised by unpacking
`process.extractOne(...)` (which is `None`) when the master list is empty. -/
def normStep (master : List String) (threshold : Nat) (acc : List String)
    (skill : String) : Except Unit (List String) :=
  match aliasLookup (pyLower skill) with
  | some canon => .ok (acc ++ [canon])
  | none =>
    match extractOne (pyLower skill).data (master.map pyLower) with
    | none => .error ()
    | some (m, score) =>
      if thresholdLe threshold score then
        match master.find? (fun s => pyLower s == m) with
        | some s => .ok (acc ++ [s])
        | none => .ok acc
      else .ok acc

/-- The loop of `skill_normalizer.normalize_skills`, collecting emissions in
order (the source adds them to the Python set `normalized`). -/
def normEmit (master : List String) (threshold : Nat) :
    List String → List String → Except Unit (List String)
  | acc, [] => .ok acc
  | acc, skill :: rest =>
    match normStep master threshold acc skill with
    | .error e => .error e
    | .ok acc' => normEmit master threshold acc' rest

/-- Python string `<=` on character lists: lexicographic by code point. -/
def charListLe : List Char → List Char → Bool
  | [], _ => true
  | _ :: _, [] => false
  | a :: as, b :: bs => if a == b then charListLe as bs else decide (a < b)

/-- Python string `<=`. -/
def strLeB (a b : String) : Bool := charListLe a.data b.data

/-- Insert into a sorted list (auxiliary to the model of Python `sorted`). -/
def insertSorted (x : String) : List String → List String
  | [] => [x]
  | y :: ys => if strLeB x y then x :: y :: ys else y :: insertSorted x ys

/-- Model of Python `sorted` on string lists: insertion sort by `strLeB`. -/
def insSort : List String → List String
  | [] => []
  | x :: xs => insertSorted x (insSort xs)

/-- The core of `skill_normalizer.normalize_skills` once the two JSON files
are read: the emission loop followed by `sorted(list(normalized))`, where
the set `normalized` is modelled by `List.dedup` of the emissions. -/
def normalize_core (raw master : List String) (threshold : Nat) :
    Except Unit (List String) :=
  match normEmit master threshold [] raw with
  | .error e => .error e
  | .ok emitted => .ok (insSort emitted.dedup)

/-- `skill_normalizer.load_raw_skills`: `open("data/user_skills.json")`
followed by `json.load(f).get("raw_skills", [])`.  The file system is
modelled as `Option (List String)`; a missing file makes `open` raise
`FileNotFoundError`, modelled as `.error` — the function has no
`try/except`. -/
def load_raw_skills (fs : Option (List String)) : Except Unit (List String) :=
  match fs with
  | none => .error ()
  | some skills => .ok skills

/-- `skill_normalizer.load_master_skills`: `open("data/skills_master.json")`
followed by `json.load(f).get("skills", [])`.  Like `load_raw_skills` it has
no `try/except`, so a missing file raises. -/
def load_master_skills (fs : Option (List String)) : Except Unit (List String) :=
  match fs with
  | none => .error ()
  | some skills => .ok skills

/-- `skill_normalizer.normalize_skills(threshold=85)`: loads the raw and
master skill files, then runs the normalization loop.  Any exception of the
loaders propagates to the caller. -/
def normalize_skills (rawFs masterFs : Option (List String)) (threshold : Nat) :
    Except Unit (List String) :=
  match load_raw_skills rawFs with
  | .error e => .error e
  | .ok raw =>
    match load_master_skills masterFs with
    | .error e => .error e
    | .ok master => normalize_core raw master threshold

/-- One row of the detailed results built by `app.calculate_score`. -/
structure ScoreRow where
  question : String
  user_answer : String
  correct_answer : String
  is_correct : Bool
deriving DecidableEq, Repr

/-- The scoring outcome of `app.calculate_score`. -/
structure ScoreResult where
  score : Nat
  total : Nat
  percentage : ℚ
  rows : List ScoreRow
deriving DecidableEq, Repr

/-- The loop of `app.calculate_score`: `score` starts at 0 and is bumped for
each `user_ans == correct_ans` pair. -/
def scoreLoop : Nat → List (Option String × String) → Nat
  | s, [] => s
  | s, (u, c) :: rest => scoreLoop (if u == some c then s + 1 else s) rest

/-- `app.calculate_score`, with the module-level `test_state` made explicit:
`questions` and `cas` are `test_state.questions` and
`test_state.correct_answers`, and `uas` the `*user_answers` argument
(`none` = an unanswered Gradio radio).  The loop runs over
`zip(user_answers, correct_answers)`; `results` reads
`test_state.questions[i]`, whose potential `IndexError` (caught by the
source's `except`, which returns an error banner instead of a result) is
modelled as `.error`.  `percentage = (score / total * 100) if total > 0 else
0` with `total = len(test_state.questions)`. -/
def calculate_score (questions cas : List String) (uas : List (Option String)) :
    Except Unit ScoreResult :=
  let pairs := uas.zip cas
  if questions.length < pairs.length then .error ()
  else
    let score := scoreLoop 0 pairs
    let rows := pairs.enum.map (fun p =>
      ⟨questions.getD p.1 "", (p.2.1).getD "Not answered", p.2.2,
       p.2.1 == some p.2.2⟩)
    let total := questions.length
    let percentage : ℚ := if 0 < total then ((score : ℚ) / (total : ℚ)) * 100 else 0
    .ok ⟨score, total, percentage, rows⟩


/-- Non-strict comparison of score fractions with positive denominators, as
a proposition: `p ≤ q` as rational numbers. -/
def fracLeP (p q : Nat × Nat) : Prop := p.1 * q.2 ≤ q.1 * p.2

/-- A string that `str.strip()` leaves unchanged: no leading and no
trailing whitespace. -/
def Trimmed (s : String) : Prop :=
  s.data.dropWhile isPySpace = s.data ∧
    s.data.reverse.dropWhile isPySpace = s.data.reverse

/-- A string with no embedded newline. -/
def NoNl (s : String) : Prop := '\n' ∉ s.data

/-- The 0-based option index denoted by a lowercase answer letter
(`ord(letter) - ord('a')`). -/
def caIdx (s : String) : Nat := (s.data.headD 'a').toNat - 97

/-- The generated-side questions for which serialize-then-parse is lossless:
trimmed newline-free question text, 1–4 options that are each trimmed,
non-empty and newline-free, and a lowercase answer letter `a`–`d` that
indexes an existing option (exactly what `generate_test`'s two producers
emit). -/
def RoundTrippable (q : OQuestion) : Prop :=
  Trimmed q.question ∧ NoNl q.question ∧
    q.options ≠ [] ∧ q.options.length ≤ 4 ∧
    (∀ o ∈ q.options, o.data ≠ [] ∧ Trimmed o ∧ NoNl o) ∧
    (q.correct_answer = "a" ∨ q.correct_answer = "b" ∨
      q.correct_answer = "c" ∨ q.correct_answer = "d") ∧
    caIdx q.correct_answer < q.options.length

instance (s : String) : Decidable (Trimmed s) := by
  unfold Trimmed
  infer_instance

instance (s : String) : Decidable (NoNl s) := by
  unfold NoNl
  infer_instance

instance (q : OQuestion) : Decidable (RoundTrippable q) := by
  unfold RoundTrippable
  infer_instance

/-- The parsed question that `parse_test_output` recovers from a serialized
question: same text, same options, and `correct_answer` resolved to the
option text at the serialized letter's index. -/
def rtQuestion (q : OQuestion) : PQuestion :=
  ⟨q.question, q.options, some (q.options.getD (caIdx q.correct_answer) "")⟩

/-- The option lines of a serialized block, as character lists
(`f"{chr(97+j)}) {option}"` without the newline). -/
def optLinesL : Nat → List String → List (List Char)
  | _, [] => []
  | j, o :: os => ([Char.ofNat (97 + j), ')', ' '] ++ o.data) :: optLinesL (j + 1) os

/-- The question line of a serialized block after `str.strip()`: the
trailing space of `f"Question {i}: "` survives only when the question text
is non-empty. -/
def qlineS (i : Nat) (q : OQuestion) : List Char :=
  if q.question.data = [] then "Question ".data ++ natDigits i ++ [':']
  else "Question ".data ++ natDigits i ++ [':', ' '] ++ q.question.data

/-- The stripped, non-empty lines that one serialized block contributes to
the parser's line list. -/
def stripBlock (i : Nat) (q : OQuestion) : List (List Char) :=
  qlineS i q :: optLinesL 0 q.options
    ++ [("Correct Answer: ".data ++ q.correct_answer.data)]

/-- The stripped, non-empty lines of a whole serialized test, with blocks
numbered from `k`. -/
def blockCat : Nat → List OQuestion → List (List Char)
  | _, [] => []
  | k, q :: rest => stripBlock k q ++ blockCat (k + 1) rest

/-- Rebuild the raw character stream from newline-terminated lines. -/
def linesData (ls : List (List Char)) : List Char :=
  ls.foldr (fun l acc => l ++ '\n' :: acc) []

/-- The raw (pre-strip) lines of one serialized block. -/
def blockRawLines (i : Nat) (q : OQuestion) : List (List Char) :=
  ("Question ".data ++ natDigits i ++ [':', ' '] ++ q.question.data)
    :: optLinesL 0 q.options
    ++ [("Correct Answer: ".data ++ q.correct_answer.data)]

/-- The validity property that `app.parse_test_output` actually guarantees
for a surfaced question record: a non-empty options list, and a
`correct_answer` that, when set, is string-equal to one of the options. -/
def PValid (q : PQuestion) : Prop :=
  q.options ≠ [] ∧ ∀ a, q.correct_answer = some a → a ∈ q.options

/-- Invariant of the open question of `app.parse_test_output`: its
`correct_answer`, when set, equals one of its options. -/
def CurInv (cur : Option PQuestion) : Prop :=
  ∀ q a, cur = some q → q.correct_answer = some a → a ∈ q.options

/-- Invariant of the `correct_answer` state of
`test_generator.parse_ollama_response`: when set, it is a single lowercase
letter `a`–`d`. -/
def CaInv (ca : Option (List Char)) : Prop :=
  ∀ l, ca = some l → l = ['a'] ∨ l = ['b'] ∨ l = ['c'] ∨ l = ['d']

/-- C5: parsing the well-formed block
`"Question 1: What is X?\na) opt1\nb) opt2\nc) opt3\nd) opt4\nCorrect Answer: b\n"`
yields exactly one question with text `"What is X?"`, the four options in
order, and `correct_answer == "opt2"` (the option text at the answered
letter's index, not the letter). -/
theorem c5_well_formed_block_parses :
    parse_test_output
        "Question 1: What is X?\na) opt1\nb) opt2\nc) opt3\nd) opt4\nCorrect Answer: b\n" =
      .ok [⟨"What is X?", ["opt1", "opt2", "opt3", "opt4"], some "opt2"⟩] := by
  rfl

/-- C1 counterexample: the parser's validity invariant fails as stated.
A block with a single option and a matching answer letter is surfaced with
`len(options) == 1 < 2`, and a correct-answer line whose letter is `"ab"`
(a multi-character substring of `'abcd'`) makes `ord()` raise a `TypeError`,
so dropping can throw. -/
theorem c1_cex_one_option_and_typeerror :
    parse_test_output "Question 1: Q?\na) x\nCorrect Answer: a" =
        .ok [⟨"Q?", ["x"], some "x"⟩] ∧
      parse_test_output "Question 1: Q?\na) x\nb) y\nCorrect Answer: ab" = .error () := by
  exact ⟨rfl, rfl⟩

/-- C2 counterexample: `normalize_skills` returns its emissions in sorted
order, not first-emission order.  The raw tokens `["py", "ai"]` emit
`"Python"` then `"Artificial Intelligence"` via the alias table, but the
result is the lexicographically sorted list. -/
theorem c2_cex_sorted_not_first_seen :
    normalize_core ["py", "ai"] [] 85 = .ok ["Artificial Intelligence", "Python"] ∧
      (["Artificial Intelligence", "Python"] : List String) ≠
        ["Python", "Artificial Intelligence"] := by
  exact ⟨rfl, by decide⟩

/-- C3: with the master vocabulary file missing (`masterFs = none`),
`normalize_skills` propagates the loader's `FileNotFoundError` instead of
returning an empty sequence, whatever the raw-skills file holds. -/
theorem c3_missing_master_raises (rawFs : Option (List String)) (threshold : Nat) :
    normalize_skills rawFs none threshold = .error () := by
  cases rawFs <;> rfl

/-- C4 counterexample: a block whose only answer marker is the trailing `*`
of `"c) opt3*"` yields no question at all (the claim requires one with
`correct_answer == "opt3"`). -/
theorem c4_cex_star_not_supported :
    parse_test_output "Question 1: Q?\na) opt1\nb) opt2\nc) opt3*\n" = .ok [] ∧
      ([] : List PQuestion) ≠ [⟨"Q?", ["opt1", "opt2", "opt3"], some "opt3"⟩] := by
  exact ⟨rfl, by decide⟩

/-- C4 amended: `parse_test_output` gives a trailing `*` no special meaning.
A block whose only marker is `"c) opt3*"` is dropped at end of input for
lack of a correct answer, and when an explicit `"Correct Answer:"` line
names such an option, the `*` stays part of the stored option and answer
text. -/
theorem c4_amended_star_kept_verbatim :
    parse_test_output "Question 1: Q?\na) opt1\nb) opt2\nc) opt3*\n" = .ok [] ∧
      parse_test_output "Question 1: Q?\na) opt1\nb) opt2*\nCorrect Answer: b\n" =
        .ok [⟨"Q?", ["opt1", "opt2*"], some "opt2*"⟩] := by
  exact ⟨rfl, rfl⟩

/-- C10 counterexample: serializing a question list that has an empty
options list (its fields hold no newlines and no parser markers) and
re-parsing does not recover the same number of questions: the single
serialized question comes back as zero questions. -/
theorem c10_cex_empty_options_lost :
    parse_test_output (format_test [⟨"q", [], "a", "s"⟩]) = .ok [] ∧
      ([⟨"q", [], "a", "s"⟩] : List OQuestion).length ≠ ([] : List PQuestion).length := by
  exact ⟨rfl, by decide⟩

theorem hasSubL_single_abcd {c : Char} (h : hasSubL [c] ("abcd".data) = true) :
    c = 'a' ∨ c = 'b' ∨ c = 'c' ∨ c = 'd' := by
  have habcd : ("abcd".data) = ['a', 'b', 'c', 'd'] := rfl
  rw [habcd] at h
  simp [hasSubL, startsL] at h
  rcases h with h | h | h | h <;> subst h <;> simp

theorem ogStep_caInv {st st' : List Char × List String × Option (List Char)}
    {line : List Char} (h : CaInv st.2.2) (hs : ogStep st line = .ok st') :
    CaInv st'.2.2 := by
  obtain ⟨qt, opts, ca⟩ := st
  simp only [ogStep] at hs
  split at hs
  · exact (Except.ok.injEq _ _).mp hs ▸ h
  · split at hs
    · exact (Except.ok.injEq _ _).mp hs ▸ h
    · split at hs
      · split at hs
        · split at hs
          · rename_i hca0 hsub lvar c hc
            split at hs
            · rw [← (Except.ok.injEq _ _).mp hs]
              intro l hl
              cases hl
              rw [hc]
              rw [hc] at hsub
              rcases hasSubL_single_abcd hsub with h1 | h1 | h1 | h1 <;> simp [h1]
            · exact (Except.ok.injEq _ _).mp hs ▸ h
          · exact absurd hs (by simp)
        · exact (Except.ok.injEq _ _).mp hs ▸ h
      · exact (Except.ok.injEq _ _).mp hs ▸ h

theorem ogFold_caInv :
    ∀ (lines : List (List Char)) (st st' : List Char × List String × Option (List Char)),
      CaInv st.2.2 → ogFold st lines = .ok st' → CaInv st'.2.2 := by
  intro lines
  induction lines with
  | nil =>
    intro st st' h hf
    simp only [ogFold] at hf
    exact (Except.ok.injEq _ _).mp hf ▸ h
  | cons l ls ih =>
    intro st st' h hf
    simp only [ogFold] at hf
    split at hf
    · exact absurd hf (by simp)
    · rename_i st1 hstep
      exact ih st1 st' (ogStep_caInv h hstep) hf

/-- C9: `parse_ollama_response` returns `none` or a record with exactly 4
options, a non-empty question text, and a `correct_answer` that is the
single lowercase answer letter `"a"`–`"d"` (not the text of the
corresponding option).  The model is a total function: the source's
`try/except` converts its only possible exception (`ord` on a bad answer
letter) into `None`, so the function never raises. -/
theorem c9_ollama_record_shape (text skill : String) (q : OQuestion)
    (h : parse_ollama_response text skill = some q) :
    q.options.length = 4 ∧ q.question ≠ "" ∧
      (q.correct_answer = "a" ∨ q.correct_answer = "b" ∨
        q.correct_answer = "c" ∨ q.correct_answer = "d") := by
  unfold parse_ollama_response at h
  cases hfold : ogFold ([], [], none) (splitNlL (stripL text.data)) with
  | error e => rw [hfold] at h; simp at h
  | ok st =>
    obtain ⟨qt, opts, ca⟩ := st
    rw [hfold] at h
    cases ca with
    | none => simp at h
    | some l =>
      simp only [] at h
      split at h
      · rename_i hcond
        have hq : q = ⟨⟨qt⟩, opts, ⟨l⟩, skill⟩ := (Option.some.injEq _ _).mp h.symm
        simp only [Bool.and_eq_true, beq_iff_eq, Bool.not_eq_eq_eq_not,
          Bool.not_true, List.isEmpty_eq_false] at hcond
        obtain ⟨⟨hqt, hopts⟩, _⟩ := hcond
        have hinv : CaInv (some l) := by
          have h0 : CaInv (none : Option (List Char)) := by
            intro x hx; cases hx
          exact ogFold_caInv _ _ _ h0 hfold
        refine ⟨by rw [hq]; exact hopts, ?_, ?_⟩
        · rw [hq]
          intro hcontra
          exact hqt (congrArg String.data hcontra)
        · rcases hinv l rfl with h1 | h1 | h1 | h1 <;>
            rw [hq] <;> simp [h1]
      · simp at h

/-- C9 witness: a concrete well-formed response parses to a record and the
shape theorem applies to it. -/
theorem c9_ollama_record_shape_witness :
    parse_ollama_response "Question: Q?\na) 1\nb) 2\nc) 3\nd) 4\nCorrect Answer: a" "py" =
        some ⟨"Q?", ["1", "2", "3", "4"], "a", "py"⟩ ∧
      (["1", "2", "3", "4"] : List String).length = 4 ∧ ("Q?" : String) ≠ "" ∧
        (("a" : String) = "a" ∨ ("a" : String) = "b" ∨ ("a" : String) = "c" ∨
          ("a" : String) = "d") :=
  ⟨rfl,
    c9_ollama_record_shape "Question: Q?\na) 1\nb) 2\nc) 3\nd) 4\nCorrect Answer: a" "py"
      ⟨"Q?", ["1", "2", "3", "4"], "a", "py"⟩ rfl⟩

theorem getD_mem_of_lt {l : List String} {n : Nat} (h : n < l.length) (d : String) :
    l.getD n d ∈ l := by
  induction l generalizing n with
  | nil => simp at h
  | cons x xs ih =>
    cases n with
    | zero => simp [List.getD]
    | succ m =>
      have hm : m < xs.length := by simpa using h
      simp only [List.getD_cons_succ]
      exact List.mem_cons_of_mem _ (ih hm)


theorem okPairInj {α β : Type} {a c : α} {b d : β}
    (h : (Except.ok (a, b) : Except Unit (α × β)) = .ok (c, d)) : a = c ∧ b = d :=
  (Prod.mk.injEq _ _ _ _).mp ((Except.ok.injEq _ _).mp h)

theorem appFlushMid_valid {out : List PQuestion} {cur : Option PQuestion}
    (hout : ∀ q ∈ out, PValid q) (hcur : CurInv cur) :
    ∀ q ∈ appFlushMid out cur, PValid q := by
  cases cur with
  | none => simpa [appFlushMid] using hout
  | some q0 =>
    by_cases hq : q0.options.isEmpty
    · simpa [appFlushMid, hq] using hout
    · simp only [appFlushMid, hq, Bool.false_eq_true, if_false]
      intro r hr
      rcases List.mem_append.mp hr with hr | hr
      · exact hout r hr
      · have hrq : r = q0 := by simpa using hr
        subst hrq
        refine ⟨?_, fun a ha => hcur r a rfl ha⟩
        intro hnil
        exact hq (by simp [hnil])

theorem appCALine_inv {out out' : List PQuestion} {q : PQuestion}
    {cur' : Option PQuestion} {line : List Char}
    (hq : ∀ a, q.correct_answer = some a → a ∈ q.options)
    (h : appCALine out q line = .ok (out', cur')) :
    out' = out ∧ ∀ r a, cur' = some r → r.correct_answer = some a → a ∈ r.options := by
  unfold appCALine at h
  split at h
  · split at h
    · rename_i c hc
      split at h
      · rename_i hidx
        obtain ⟨h1, h2⟩ := okPairInj h
        refine ⟨h1.symm, ?_⟩
        intro r a hr ha
        have hr' : r = { q with correct_answer := some (q.options.getD (c.toNat - 97) "") } :=
          ((Option.some.injEq _ _).mp (h2.trans hr)).symm
        subst hr'
        have ha' : a = q.options.getD (c.toNat - 97) "" := by
          simpa using ha.symm
        subst ha'
        exact getD_mem_of_lt hidx ""
      · obtain ⟨h1, h2⟩ := okPairInj h
        refine ⟨h1.symm, ?_⟩
        intro r a hr ha
        have hr' : r = q := ((Option.some.injEq _ _).mp (h2.trans hr)).symm
        subst hr'
        exact hq a ha
    · exact absurd h (by simp)
  · obtain ⟨h1, h2⟩ := okPairInj h
    refine ⟨h1.symm, ?_⟩
    intro r a hr ha
    have hr' : r = q := ((Option.some.injEq _ _).mp (h2.trans hr)).symm
    subst hr'
    exact hq a ha

theorem appStep_inv {out out' : List PQuestion} {cur cur' : Option PQuestion}
    {line : List Char} (hout : ∀ q ∈ out, PValid q) (hcur : CurInv cur)
    (hs : appStep (out, cur) line = .ok (out', cur')) :
    (∀ q ∈ out', PValid q) ∧ CurInv cur' := by
  unfold appStep at hs
  split at hs
  · obtain ⟨h1, h2⟩ := okPairInj hs
    refine ⟨h1 ▸ appFlushMid_valid hout hcur, ?_⟩
    intro r a hr ha
    have hr' : r = ⟨⟨stripL (afterFirstChar ':' line)⟩, [], none⟩ :=
      ((Option.some.injEq _ _).mp (h2.trans hr)).symm
    subst hr'
    cases ha
  · cases cur with
    | none =>
      simp only [] at hs
      obtain ⟨h1, h2⟩ := okPairInj hs
      refine ⟨h1 ▸ hout, ?_⟩
      intro r a hr _
      exact absurd (h2.trans hr) (by simp)
    | some q0 =>
      simp only [] at hs
      split at hs
      · obtain ⟨h1, h2⟩ := okPairInj hs
        refine ⟨h1 ▸ hout, ?_⟩
        intro r a hr ha
        have hr' : r = { q0 with options := q0.options ++ [⟨stripL (line.drop 3)⟩] } :=
          ((Option.some.injEq _ _).mp (h2.trans hr)).symm
        subst hr'
        have ha' : q0.correct_answer = some a := ha
        exact List.mem_append_left _ (hcur q0 a rfl ha')
      · split at hs
        · obtain ⟨h1, h2⟩ := appCALine_inv (fun a ha => hcur q0 a rfl ha) hs
          exact ⟨h1 ▸ hout, h2⟩
        · obtain ⟨h1, h2⟩ := okPairInj hs
          refine ⟨h1 ▸ hout, ?_⟩
          intro r a hr ha
          have hr' : r = q0 := ((Option.some.injEq _ _).mp (h2.trans hr)).symm
          subst hr'
          exact hcur r a rfl ha

theorem appFold_inv :
    ∀ (lines : List (List Char)) (st st' : List PQuestion × Option PQuestion),
      (∀ q ∈ st.1, PValid q) → CurInv st.2 → appFold st lines = .ok st' →
        (∀ q ∈ st'.1, PValid q) ∧ CurInv st'.2 := by
  intro lines
  induction lines with
  | nil =>
    intro st st' hout hcur hf
    simp only [appFold] at hf
    have := (Except.ok.injEq _ _).mp hf
    exact this ▸ ⟨hout, hcur⟩
  | cons l ls ih =>
    intro st st' hout hcur hf
    obtain ⟨o1, c1⟩ := st
    simp only [appFold] at hf
    split at hf
    · exact absurd hf (by simp)
    · rename_i st1 hstep
      obtain ⟨o2, c2⟩ := st1
      obtain ⟨h1, h2⟩ := appStep_inv hout hcur hstep
      exact ih (o2, c2) st' h1 h2 hf

/-- C1 amended: what `parse_test_output` actually guarantees.  It can raise
(`ord` TypeError, when a correct-answer line's trimmed letter is a
multi-character substring of `'abcd'`); when it returns, every surfaced
question has at least one option (not two), its question text may be empty,
its `correct_answer` is `None` for questions flushed by a later question
line without an answer, and whenever `correct_answer` is set it is exactly
string-equal to one of the question's options; the final open question is
surfaced only with a non-empty options list and a set, non-empty
`correct_answer`. -/
theorem c1_amended_parser_guarantee (s : String) (qs : List PQuestion)
    (h : parse_test_output s = .ok qs) :
    ∀ q ∈ qs, q.options ≠ [] ∧ ∀ a, q.correct_answer = some a → a ∈ q.options := by
  unfold parse_test_output at h
  cases hfold : appFold ([], none) (appLines s) with
  | error e => rw [hfold] at h; simp [appFinish] at h
  | ok st =>
    obtain ⟨out, cur⟩ := st
    rw [hfold] at h
    simp only [appFinish] at h
    have h0 : ∀ q ∈ ([] : List PQuestion), PValid q := by intro q hq; cases hq
    have hc0 : CurInv (none : Option PQuestion) := by intro r a hr; cases hr
    obtain ⟨hout, hcur⟩ := appFold_inv _ _ _ h0 hc0 hfold
    simp only at hout hcur
    cases cur with
    | none =>
      have hqs : qs = out := by simpa using h.symm
      subst hqs
      exact hout
    | some q0 =>
      simp only [] at h
      split at h
      · rename_i hcond
        have hqs : qs = out ++ [q0] := by simpa using h.symm
        subst hqs
        intro r hr
        rcases List.mem_append.mp hr with hr | hr
        · exact hout r hr
        · have hrq : r = q0 := by simpa using hr
          subst hrq
          simp only [Bool.and_eq_true, Bool.not_eq_eq_eq_not, Bool.not_true,
            List.isEmpty_eq_false] at hcond
          exact ⟨hcond.1, fun a ha => hcur r a rfl ha⟩
      · have hqs : qs = out := by simpa using h.symm
        subst hqs
        exact hout

/-- C1 amended witness: a two-option block parses, and the guarantee applies
to the surfaced question. -/
theorem c1_amended_parser_guarantee_witness :
    parse_test_output "Question 1: W?\na) u\nb) v\nCorrect Answer: a\n" =
        .ok [⟨"W?", ["u", "v"], some "u"⟩] ∧
      (PQuestion.mk "W?" ["u", "v"] (some "u")).options ≠ [] ∧
        ("u" : String) ∈ (PQuestion.mk "W?" ["u", "v"] (some "u")).options :=
  ⟨rfl,
    (c1_amended_parser_guarantee "Question 1: W?\na) u\nb) v\nCorrect Answer: a\n"
        [⟨"W?", ["u", "v"], some "u"⟩] rfl ⟨"W?", ["u", "v"], some "u"⟩
        (by simp)).1,
    (c1_amended_parser_guarantee "Question 1: W?\na) u\nb) v\nCorrect Answer: a\n"
        [⟨"W?", ["u", "v"], some "u"⟩] rfl ⟨"W?", ["u", "v"], some "u"⟩
        (by simp)).2 "u" rfl⟩

theorem scoreLoop_eq_countP (s : Nat) (l : List (Option String × String)) :
    scoreLoop s l = s + l.countP (fun p => p.1 == some p.2) := by
  induction l generalizing s with
  | nil => simp [scoreLoop]
  | cons p t ih =>
    by_cases hp : p.1 == some p.2
    · simp [scoreLoop, hp, ih]
      omega
    · simp only [Bool.not_eq_true] at hp
      simp [scoreLoop, hp, ih]

/-- C7: for aligned state (as set up by `process_inputs`: as many stored
questions as correct answers) and a positionally aligned answer tuple,
`calculate_score` succeeds with `total` the number of questions, `score` the
count of answers string-equal to the corresponding correct answer
(unanswered slots never match, hence count as incorrect), and
`percentage = score/total*100` guarded to `0` when `total == 0`, with no
division-by-zero fault. -/
theorem c7_scorer_alignment (questions cas : List String) (uas : List (Option String))
    (h1 : uas.length = cas.length) (h2 : cas.length = questions.length) :
    ∃ r, calculate_score questions cas uas = .ok r ∧
      r.total = questions.length ∧
      r.score = (uas.zip cas).countP (fun p => p.1 == some p.2) ∧
      r.percentage = (if r.total = 0 then 0 else ((r.score : ℚ) / (r.total : ℚ)) * 100) := by
  have hlen : (uas.zip cas).length = questions.length := by
    rw [List.length_zip, h1, h2, Nat.min_self]
  have hno : ¬ (questions.length < (uas.zip cas).length) := by omega
  simp only [calculate_score]
  rw [if_neg hno]
  refine ⟨_, rfl, rfl, ?_, ?_⟩
  · simpa using scoreLoop_eq_countP 0 (uas.zip cas)
  · by_cases hq : questions.length = 0
    · simp [hq]
    · simp [hq, Nat.pos_of_ne_zero hq]

/-- C7 witness: a concrete two-question test with one matching answer and
one unanswered slot satisfies the scorer contract. -/
theorem c7_scorer_alignment_witness :
    ([some "x", none] : List (Option String)).length = (["x", "y"] : List String).length ∧
      (["x", "y"] : List String).length = (["q1", "q2"] : List String).length ∧
      ∃ r, calculate_score ["q1", "q2"] ["x", "y"] [some "x", none] = .ok r ∧
        r.total = (["q1", "q2"] : List String).length ∧
        r.score = (([some "x", none] : List (Option String)).zip ["x", "y"]).countP
          (fun p => p.1 == some p.2) ∧
        r.percentage = (if r.total = 0 then 0 else ((r.score : ℚ) / (r.total : ℚ)) * 100) :=
  ⟨rfl, rfl, c7_scorer_alignment ["q1", "q2"] ["x", "y"] [some "x", none] rfl rfl⟩

theorem enumFrom_map_get (f : Nat × String → OQuestion) (l : List String) :
    ∀ (n i : Nat), ((l.enumFrom n).map f).get? i = (l.get? i).map (fun sk => f (n + i, sk)) := by
  induction l with
  | nil => intro n i; simp
  | cons x xs ih =>
    intro n i
    cases i with
    | zero => simp
    | succ j =>
      simp only [List.enumFrom_cons, List.map_cons, List.get?_cons_succ]
      rw [ih (n + 1) j]
      have harith : n + 1 + j = n + (j + 1) := by omega
      rw [harith]

theorem generate_test_questions_all_fallback (skills : List String) (avail : Bool)
    (resp : Nat → Option String) (rnd : Nat → FallbackRand)
    (hfail : avail = false ∨ ∀ i, resp i = none) :
    generate_test_questions skills avail resp rnd =
      skills.enum.map (fun p => generate_fallback_question p.2 (rnd p.1).pick (rnd p.1).shuffle) := by
  unfold generate_test_questions
  rcases hfail with hfail | hfail
  · subst hfail
    simp
  · apply List.map_congr_left
    intro p _
    cases havail : avail
    · simp
    · simp [generate_question_with_ollama, hfail p.1]

/-- C6: with the external generator failing or unavailable for every skill,
`generate_test` still produces exactly one question per skill, in input
skill order, each by the deterministic template fallback path (never zero
questions for a non-empty skill list, never more than one per skill). -/
theorem c6_fallback_one_question_per_skill (skills : List String) (avail : Bool)
    (resp : Nat → Option String) (rnd : Nat → FallbackRand)
    (hne : skills ≠ [])
    (hfail : avail = false ∨ ∀ i, resp i = none) :
    (generate_test_questions skills avail resp rnd).length = skills.length ∧
      (generate_test_questions skills avail resp rnd).length ≠ 0 ∧
      ∀ i, (generate_test_questions skills avail resp rnd).get? i =
        (skills.get? i).map
          (fun sk => generate_fallback_question sk (rnd i).pick (rnd i).shuffle) := by
  rw [generate_test_questions_all_fallback skills avail resp rnd hfail]
  refine ⟨by simp, ?_, ?_⟩
  · simp only [List.length_map, List.enum_length, ne_eq, List.length_eq_zero]
    exact hne
  · intro i
    have := enumFrom_map_get
      (fun p => generate_fallback_question p.2 (rnd p.1).pick (rnd p.1).shuffle) skills 0 i
    simpa [List.enum] using this

/-- C6 witness: two skills, generator unavailable, identity shuffle — one
fallback question per skill in order. -/
theorem c6_fallback_one_question_per_skill_witness :
    (["Python", "Git"] : List String) ≠ [] ∧
      (generate_test_questions ["Python", "Git"] false (fun _ => none)
        (fun _ => ⟨0, Equiv.refl _⟩)).length = (["Python", "Git"] : List String).length ∧
      (generate_test_questions ["Python", "Git"] false (fun _ => none)
        (fun _ => ⟨0, Equiv.refl _⟩)).get? 0 =
        some (generate_fallback_question "Python" 0 (Equiv.refl _)) ∧
      (generate_test_questions ["Python", "Git"] false (fun _ => none)
        (fun _ => ⟨0, Equiv.refl _⟩)).get? 1 =
        some (generate_fallback_question "Git" 0 (Equiv.refl _)) := by
  have h := c6_fallback_one_question_per_skill ["Python", "Git"] false (fun _ => none)
    (fun _ => ⟨0, Equiv.refl _⟩) (by simp) (Or.inl rfl)
  exact ⟨by simp, h.1, by rw [h.2.2 0]; rfl, by rw [h.2.2 1]; rfl⟩

theorem charListLe_total : ∀ a b : List Char, charListLe a b = true ∨ charListLe b a = true := by
  intro a
  induction a with
  | nil => intro b; exact Or.inl rfl
  | cons x xs ih =>
    intro b
    cases b with
    | nil => exact Or.inr rfl
    | cons y ys =>
      by_cases hxy : x = y
      · subst hxy
        rcases ih ys with h | h
        · left; simp [charListLe, h]
        · right; simp [charListLe, h]
      · rcases lt_or_gt_of_ne hxy with h | h
        · left; simp [charListLe, hxy, h]
        · right; simp [charListLe, Ne.symm hxy, h]

theorem charListLe_cons_iff {x y : Char} {xs ys : List Char} :
    charListLe (x :: xs) (y :: ys) = true ↔
      (x = y ∧ charListLe xs ys = true) ∨ (x ≠ y ∧ x < y) := by
  by_cases h : x = y
  · subst h; simp [charListLe]
  · simp [charListLe, h]

theorem charListLe_trans :
    ∀ a b c : List Char, charListLe a b = true → charListLe b c = true →
      charListLe a c = true := by
  intro a
  induction a with
  | nil => intro b c _ _; rfl
  | cons x xs ih =>
    intro b c hab hbc
    cases b with
    | nil => simp [charListLe] at hab
    | cons y ys =>
      cases c with
      | nil => simp [charListLe] at hbc
      | cons z zs =>
        rcases charListLe_cons_iff.mp hab with ⟨hxy, hrec1⟩ | ⟨hxy, hlt1⟩ <;>
          rcases charListLe_cons_iff.mp hbc with ⟨hyz, hrec2⟩ | ⟨hyz, hlt2⟩
        · exact charListLe_cons_iff.mpr (Or.inl ⟨hxy.trans hyz, ih ys zs hrec1 hrec2⟩)
        · exact charListLe_cons_iff.mpr
            (Or.inr ⟨by rw [hxy]; exact hyz, by rw [hxy]; exact hlt2⟩)
        · exact charListLe_cons_iff.mpr
            (Or.inr ⟨by rw [← hyz]; exact hxy, by rw [← hyz]; exact hlt1⟩)
        · have hxz : x < z := lt_trans hlt1 hlt2
          exact charListLe_cons_iff.mpr (Or.inr ⟨ne_of_lt hxz, hxz⟩)

theorem strLeB_total (a b : String) : strLeB a b = true ∨ strLeB b a = true :=
  charListLe_total a.data b.data

theorem strLeB_trans {a b c : String} (h1 : strLeB a b = true) (h2 : strLeB b c = true) :
    strLeB a c = true :=
  charListLe_trans a.data b.data c.data h1 h2

theorem insertSorted_perm (x : String) (l : List String) :
    (insertSorted x l).Perm (x :: l) := by
  induction l with
  | nil => simp [insertSorted]
  | cons y ys ih =>
    by_cases h : strLeB x y
    · simp [insertSorted, h]
    · simp only [insertSorted, h, Bool.false_eq_true, if_false]
      exact (ih.cons y).trans (List.Perm.swap x y ys)

theorem insSort_perm (l : List String) : (insSort l).Perm l := by
  induction l with
  | nil => simp [insSort]
  | cons x xs ih =>
    exact (insertSorted_perm x (insSort xs)).trans (ih.cons x)

theorem insertSorted_pairwise {x : String} {l : List String}
    (hl : l.Pairwise (fun a b => strLeB a b = true)) :
    (insertSorted x l).Pairwise (fun a b => strLeB a b = true) := by
  induction l with
  | nil => simp [insertSorted]
  | cons y ys ih =>
    rcases List.pairwise_cons.mp hl with ⟨hy, hys⟩
    by_cases h : strLeB x y
    · simp only [insertSorted, h, if_true]
      refine List.pairwise_cons.mpr ⟨?_, hl⟩
      intro z hz
      rcases List.mem_cons.mp hz with hz | hz
      · subst hz; exact h
      · exact strLeB_trans h (hy z hz)
    · simp only [insertSorted, h, Bool.false_eq_true, if_false]
      refine List.pairwise_cons.mpr ⟨?_, ih hys⟩
      intro z hz
      have hz' : z ∈ x :: ys := (insertSorted_perm x ys).mem_iff.mp hz
      rcases List.mem_cons.mp hz' with hz' | hz'
      · subst hz'
        rcases strLeB_total z y with htot | htot
        · exact absurd htot h
        · exact htot
      · exact hy z hz'

theorem insSort_pairwise (l : List String) :
    (insSort l).Pairwise (fun a b => strLeB a b = true) := by
  induction l with
  | nil => simp [insSort]
  | cons x xs ih => exact insertSorted_pairwise ih

theorem normStep_mem {master : List String} {t : Nat} {acc acc' : List String}
    {skill : String} (h : normStep master t acc skill = .ok acc') :
    ∀ x ∈ acc', x ∈ acc ∨ (∃ p ∈ ALIASES, p.2 = x) ∨ x ∈ master := by
  unfold normStep at h
  split at h
  · rename_i canon hfind
    have hc : ∃ p ∈ ALIASES, p.2 = canon := by
      rcases Option.map_eq_some'.mp hfind with ⟨p, hp, hpc⟩
      exact ⟨p, List.mem_of_find?_eq_some hp, hpc⟩
    have hacc : acc' = acc ++ [canon] := ((Except.ok.injEq _ _).mp h).symm
    subst hacc
    intro x hx
    rcases List.mem_append.mp hx with hx | hx
    · exact Or.inl hx
    · have : x = canon := by simpa using hx
      subst this
      exact Or.inr (Or.inl hc)
  · split at h
    · exact absurd h (by simp)
    · split at h
      · split at h
        · rename_i hsc s hfind
          have hacc : acc' = acc ++ [s] := ((Except.ok.injEq _ _).mp h).symm
          subst hacc
          intro x hx
          rcases List.mem_append.mp hx with hx | hx
          · exact Or.inl hx
          · have : x = s := by simpa using hx
            subst this
            exact Or.inr (Or.inr (List.mem_of_find?_eq_some hfind))
        · have hacc : acc' = acc := ((Except.ok.injEq _ _).mp h).symm
          subst hacc
          exact fun x hx => Or.inl hx
      · have hacc : acc' = acc := ((Except.ok.injEq _ _).mp h).symm
        subst hacc
        exact fun x hx => Or.inl hx

theorem normEmit_mem :
    ∀ (raw : List String) (master : List String) (t : Nat) (acc emitted : List String),
      normEmit master t acc raw = .ok emitted →
        ∀ x ∈ emitted, x ∈ acc ∨ (∃ p ∈ ALIASES, p.2 = x) ∨ x ∈ master := by
  intro raw
  induction raw with
  | nil =>
    intro master t acc emitted h
    simp only [normEmit] at h
    have : acc = emitted := (Except.ok.injEq _ _).mp h
    subst this
    exact fun x hx => Or.inl hx
  | cons sk rest ih =>
    intro master t acc emitted h
    simp only [normEmit] at h
    split at h
    · exact absurd h (by simp)
    · rename_i acc1 hstep
      intro x hx
      rcases ih master t acc1 emitted h x hx with hx1 | hx1
      · exact normStep_mem hstep x hx1
      · exact Or.inr hx1

/-- C2 amended: `normalize_skills` returns the emitted canonical names
deduplicated via a set and then sorted lexicographically — not in
first-emission order — and every returned name is either an alias target or
a master-vocabulary entry verbatim (exact canonical casing).  The specific
example still holds: with the vocabulary `["Python"]`,
`normalize(["Python","python","PYTHON"])` returns `["Python"]`. -/
theorem c2_amended_sorted_dedup_canonical (raw master : List String) (t : Nat)
    (out : List String) (h : normalize_core raw master t = .ok out) :
    out.Nodup ∧ out.Pairwise (fun a b => strLeB a b = true) ∧
      ∀ x ∈ out, (∃ p ∈ ALIASES, p.2 = x) ∨ x ∈ master := by
  unfold normalize_core at h
  cases hemit : normEmit master t [] raw with
  | error e => rw [hemit] at h; simp at h
  | ok emitted =>
    rw [hemit] at h
    have hout : out = insSort emitted.dedup := ((Except.ok.injEq _ _).mp h).symm
    subst hout
    refine ⟨?_, insSort_pairwise _, ?_⟩
    · exact ((insSort_perm emitted.dedup).nodup_iff).mpr (List.nodup_dedup emitted)
    · intro x hx
      have hx1 : x ∈ emitted.dedup := (insSort_perm emitted.dedup).mem_iff.mp hx
      have hx2 : x ∈ emitted := (List.mem_dedup).mp hx1
      rcases normEmit_mem raw master t [] emitted hemit x hx2 with hx3 | hx3
      · cases hx3
      · exact hx3

set_option maxRecDepth 8000 in
/-- C2 amended witness: the claim's own example, with vocabulary
`["Python"]`, evaluates to `["Python"]`, and the amended guarantees apply. -/
theorem c2_amended_sorted_dedup_canonical_witness :
    normalize_core ["Python", "python", "PYTHON"] ["Python"] 85 = .ok ["Python"] ∧
      (["Python"] : List String).Nodup ∧
      (["Python"] : List String).Pairwise (fun a b => strLeB a b = true) :=
  ⟨rfl,
    (c2_amended_sorted_dedup_canonical ["Python", "python", "PYTHON"] ["Python"] 85
      ["Python"] rfl).1,
    (c2_amended_sorted_dedup_canonical ["Python", "python", "PYTHON"] ["Python"] 85
      ["Python"] rfl).2.1⟩

theorem ratioPair_den_pos (a b : List Char) : 0 < (ratioPair a b).2 := by
  unfold ratioPair
  split
  · simp
  · rename_i h
    simpa using Nat.pos_of_ne_zero h

theorem fracLeP_refl (p : Nat × Nat) : fracLeP p p := le_refl _

theorem fracLeP_trans {p q r : Nat × Nat} (hq : 0 < q.2)
    (h1 : fracLeP p q) (h2 : fracLeP q r) : fracLeP p r := by
  unfold fracLeP at h1 h2 ⊢
  have hm1 : p.1 * q.2 * r.2 ≤ q.1 * p.2 * r.2 := Nat.mul_le_mul_right _ h1
  have hm2 : q.1 * r.2 * p.2 ≤ r.1 * q.2 * p.2 := Nat.mul_le_mul_right _ h2
  have hchain : p.1 * r.2 * q.2 ≤ r.1 * p.2 * q.2 := by
    calc p.1 * r.2 * q.2 = p.1 * q.2 * r.2 := by ring
      _ ≤ q.1 * p.2 * r.2 := hm1
      _ = q.1 * r.2 * p.2 := by ring
      _ ≤ r.1 * q.2 * p.2 := hm2
      _ = r.1 * p.2 * q.2 := by ring
  exact Nat.le_of_mul_le_mul_right hchain hq

theorem fracLeP_of_fracLt_false {p q : Nat × Nat} (h : fracLt p q = false) :
    fracLeP q p := by
  unfold fracLt at h
  unfold fracLeP
  simp at h
  omega

theorem fracLeP_of_fracLt {p q : Nat × Nat} (h : fracLt p q = true) :
    fracLeP p q := by
  unfold fracLt at h
  unfold fracLeP
  simp at h
  omega

theorem thresholdLe_mono {t : Nat} {p q : Nat × Nat} (hp : 0 < p.2)
    (ht : thresholdLe t p = true) (hle : fracLeP p q) : thresholdLe t q = true := by
  unfold thresholdLe at ht ⊢
  unfold fracLeP at hle
  simp only [decide_eq_true_eq] at ht ⊢
  have h1 : t * q.2 * p.2 ≤ p.1 * q.2 := by
    calc t * q.2 * p.2 = t * p.2 * q.2 := by ring
      _ ≤ p.1 * q.2 := Nat.mul_le_mul_right _ ht
  have h2 : t * q.2 * p.2 ≤ q.1 * p.2 := le_trans h1 hle
  have h3 : t * q.2 * p.2 ≤ q.1 * p.2 := h2
  have := Nat.le_of_mul_le_mul_right (by
    calc t * q.2 * p.2 ≤ q.1 * p.2 := h3
    ) hp
  exact this

theorem fold_best_den_pos (g : List Char → Nat × Nat)
    (hg : ∀ w, 0 < (g w).2) :
    ∀ (ws : List (List Char)) (init : Nat × Nat), 0 < init.2 →
      0 < (ws.foldl (fun m w => if fracLt m (g w) then g w else m) init).2 := by
  intro ws
  induction ws with
  | nil => intro init h; exact h
  | cons w rest ih =>
    intro init h
    simp only [List.foldl_cons]
    by_cases hlt : fracLt init (g w)
    · simp only [hlt, if_true]
      exact ih (g w) (hg w)
    · simp only [hlt, Bool.false_eq_true, if_false]
      exact ih init h

theorem fold_best_ge_init (g : List Char → Nat × Nat)
    (hg : ∀ w, 0 < (g w).2) :
    ∀ (ws : List (List Char)) (init : Nat × Nat), 0 < init.2 →
      fracLeP init (ws.foldl (fun m w => if fracLt m (g w) then g w else m) init) := by
  intro ws
  induction ws with
  | nil => intro init _; exact fracLeP_refl init
  | cons w rest ih =>
    intro init hpos
    simp only [List.foldl_cons]
    by_cases hlt : fracLt init (g w)
    · have h1 : fracLeP init (g w) := fracLeP_of_fracLt hlt
      have h2 : fracLeP (g w) _ := ih (g w) (hg w)
      simp only [hlt, if_true]
      exact fracLeP_trans (hg w) h1 (ih (g w) (hg w))
    · simp only [hlt, Bool.false_eq_true, if_false]
      exact ih init hpos

theorem fold_best_ge_mem (g : List Char → Nat × Nat)
    (hg : ∀ w, 0 < (g w).2) :
    ∀ (ws : List (List Char)) (init : Nat × Nat), 0 < init.2 →
      ∀ w ∈ ws, fracLeP (g w)
        (ws.foldl (fun m w => if fracLt m (g w) then g w else m) init) := by
  intro ws
  induction ws with
  | nil => intro init _ w hw; cases hw
  | cons v rest ih =>
    intro init hpos w hw
    simp only [List.foldl_cons]
    rcases List.mem_cons.mp hw with hw | hw
    · subst hw
      by_cases hlt : fracLt init (g w)
      · simp only [hlt, if_true]
        exact fold_best_ge_init g hg rest (g w) (hg w)
      · simp only [hlt, Bool.false_eq_true, if_false]
        have h1 : fracLeP (g w) init := fracLeP_of_fracLt_false (by simpa using hlt)
        exact fracLeP_trans hpos h1 (fold_best_ge_init g hg rest init hpos)
    · by_cases hlt : fracLt init (g v)
      · simp only [hlt, if_true]
        exact ih (g v) (hg v) w hw
      · simp only [hlt, Bool.false_eq_true, if_false]
        exact ih init hpos w hw

theorem lcsLenFuel_self : ∀ (l : List Char) (fuel : Nat), l.length ≤ fuel →
    lcsLenFuel fuel l l = l.length := by
  intro l
  induction l with
  | nil => intro fuel _; cases fuel <;> rfl
  | cons c t ih =>
    intro fuel h
    cases fuel with
    | zero => simp at h
    | succ f =>
      have ht : t.length ≤ f := by simpa using h
      simp [lcsLenFuel, ih f ht]

theorem lcsLen_self (l : List Char) : lcsLen l l = l.length :=
  lcsLenFuel_self l (l.length + l.length) (by omega)

theorem thresholdLe_85_ratioPair_self (l : List Char) :
    thresholdLe 85 (ratioPair l l) = true := by
  unfold thresholdLe ratioPair
  by_cases h : l.length + l.length = 0
  · simp [h]
  · simp only [h, if_false, lcsLen_self]
    simp only [decide_eq_true_eq]
    omega

theorem mem_contSubs_of_infix {w l : List Char} (h : w <:+: l) : w ∈ contSubs l := by
  rcases List.infix_iff_prefix_suffix.mp h with ⟨t, hpre, hsuf⟩
  unfold contSubs
  rw [List.mem_flatMap]
  exact ⟨t, (List.mem_tails t l).mpr hsuf, (List.mem_inits w t).mpr hpre⟩

theorem infix_map_lower {a b : List Char} (h : a <:+: b) : lowerL a <:+: lowerL b := by
  rcases h with ⟨s, t, hst⟩
  refine ⟨lowerL s, lowerL t, ?_⟩
  rw [← hst]
  simp [lowerL]

/-- C8 counterexample: the claim as stated quantifies over every text; with
the empty text and the vocabulary containing the empty entry, the entry
occurs as a contiguous substring of the text yet `extract_skills_from_text`
returns the empty list (the source returns `[]` whenever `not text`). -/
theorem c8_cex_empty_text :
    ("" : String).data <:+: ("" : String).data ∧
      ("" : String) ∈ ([""] : List String) ∧
      ("" : String) ∉ extract_skills_from_text "" [""] := by
  refine ⟨List.infix_rfl, by simp, ?_⟩
  intro hc
  simp [extract_skills_from_text] at hc

/-- C8 amended: for every vocabulary and every non-empty text that contains
a vocabulary entry exactly as a contiguous substring, the extractor includes
that entry: the partial-ratio alignment scores an exact substring 100, which
clears the threshold 85. -/
theorem c8_amended_substring_found (V : List String) (T e : String)
    (he : e ∈ V) (hsub : e.data <:+: T.data) (hT : T ≠ "") :
    e ∈ extract_skills_from_text T V := by
  have hTd : T.data ≠ [] := by
    intro hc
    apply hT
    cases T with
    | mk d =>
      simp only at hc
      subst hc
      rfl
  have hVne : V ≠ [] := List.ne_nil_of_mem he
  unfold extract_skills_from_text
  rw [if_neg (by simp [hTd, hVne])]
  refine List.mem_filter.mpr ⟨he, ?_⟩
  have hlen : (lowerL e.data).length ≤ (lowerL T.data).length := by
    simpa [lowerL] using List.IsInfix.length_le hsub
  unfold bestWindowPair
  simp only [hlen, if_pos]
  have hwmem : lowerL e.data ∈ contSubs (lowerL T.data) :=
    mem_contSubs_of_infix (infix_map_lower hsub)
  have hfold := fold_best_ge_mem (fun w => ratioPair (lowerL e.data) w)
    (fun w => ratioPair_den_pos _ w) (contSubs (lowerL T.data)) (0, 1) (by simp)
    (lowerL e.data) hwmem
  have hself : thresholdLe 85 (ratioPair (lowerL e.data) (lowerL e.data)) = true :=
    thresholdLe_85_ratioPair_self _
  exact thresholdLe_mono (ratioPair_den_pos _ _) hself hfold

/-- C8 amended witness: `"Python"` occurs verbatim in a concrete resume
text and is extracted from the vocabulary. -/
theorem c8_amended_substring_found_witness :
    ("Python" : String) ∈ (["SQL", "Python"] : List String) ∧
      ("Python" : String).data <:+: ("I use Python" : String).data ∧
      ("I use Python" : String) ≠ "" ∧
      ("Python" : String) ∈ extract_skills_from_text "I use Python" ["SQL", "Python"] := by
  refine ⟨by simp, ⟨"I use ".data, [], by rfl⟩, by simp, ?_⟩
  exact c8_amended_substring_found ["SQL", "Python"] "I use Python" "Python"
    (by simp) ⟨"I use ".data, [], by rfl⟩ (by simp)

theorem splitChar_no_sep {sep : Char} : ∀ {l : List Char}, sep ∉ l →
    splitChar sep l = [l] := by
  intro l
  induction l with
  | nil => intro _; rfl
  | cons c t ih =>
    intro h
    have hc : (c == sep) = false := by
      simp only [beq_eq_false_iff_ne, ne_eq]
      intro hcon
      exact h (hcon ▸ List.mem_cons_self c t)
    have ht : sep ∉ t := fun hm => h (List.mem_cons_of_mem c hm)
    simp [splitChar, hc, ih ht]

theorem splitChar_append_sep {sep : Char} : ∀ {x : List Char} (y : List Char), sep ∉ x →
    splitChar sep (x ++ sep :: y) = x :: splitChar sep y := by
  intro x
  induction x with
  | nil =>
    intro y _
    simp [splitChar]
  | cons c t ih =>
    intro y h
    have hc : (c == sep) = false := by
      simp only [beq_eq_false_iff_ne, ne_eq]
      intro hcon
      exact h (hcon ▸ List.mem_cons_self c t)
    have ht : sep ∉ t := fun hm => h (List.mem_cons_of_mem c hm)
    simp only [List.cons_append, splitChar, hc, Bool.false_eq_true, if_false,
      List.append_eq]
    rw [ih y ht]

theorem splitNl_linesData : ∀ (ls : List (List Char)) (rest : List Char),
    (∀ l ∈ ls, '\n' ∉ l) →
    splitNlL (linesData ls ++ rest) = ls ++ splitNlL rest := by
  intro ls
  induction ls with
  | nil => intro rest _; rfl
  | cons l t ih =>
    intro rest h
    have hl : '\n' ∉ l := h l (List.mem_cons_self l t)
    have ht : ∀ l' ∈ t, '\n' ∉ l' := fun l' hm => h l' (List.mem_cons_of_mem l hm)
    have hshape : linesData (l :: t) ++ rest = l ++ '\n' :: (linesData t ++ rest) := by
      simp [linesData, List.append_assoc]
    rw [hshape]
    unfold splitNlL
    rw [splitChar_append_sep (linesData t ++ rest) hl]
    rw [← splitNlL]
    rw [ih rest ht]
    rfl

theorem startsL_append_left : ∀ (p x y : List Char), startsL x p = true →
    startsL (x ++ y) p = true := by
  intro p
  induction p with
  | nil => intro x y _; cases x ++ y <;> rfl
  | cons a p' ih =>
    intro x y h
    cases x with
    | nil => simp [startsL] at h
    | cons b x' =>
      simp only [startsL, Bool.and_eq_true] at h
      simp only [List.cons_append, startsL, Bool.and_eq_true]
      exact ⟨h.1, ih x' y h.2⟩

theorem startsL_head_ne {a b : Char} (x p : List Char) (h : a ≠ b) :
    startsL (a :: x) (b :: p) = false := by
  simp [startsL, h]

theorem hasSubL_of_startsL {needle : List Char} : ∀ {l : List Char},
    startsL l needle = true → hasSubL needle l = true := by
  intro l
  cases l with
  | nil => intro h; exact h
  | cons c t => intro h; simp [hasSubL, h]

theorem afterFirstChar_append {sep : Char} : ∀ {x : List Char} (y : List Char),
    sep ∉ x → afterFirstChar sep (x ++ y) = afterFirstChar sep y := by
  intro x
  induction x with
  | nil => intro y _; rfl
  | cons c t ih =>
    intro y h
    have hc : (c == sep) = false := by
      simp only [beq_eq_false_iff_ne, ne_eq]
      intro hcon
      exact h (hcon ▸ List.mem_cons_self c t)
    have ht : sep ∉ t := fun hm => h (List.mem_cons_of_mem c hm)
    simp only [List.cons_append, afterFirstChar, hc, Bool.false_eq_true, if_false]
    exact ih y ht

theorem digitCharOf_ne (m : Nat) :
    digitCharOf m ≠ ':' ∧ digitCharOf m ≠ '\n' := by
  unfold digitCharOf
  split <;> exact ⟨by decide, by decide⟩

theorem natDigitsFuel_ne : ∀ (fuel n : Nat) (c : Char), c ∈ natDigitsFuel fuel n →
    c ≠ ':' ∧ c ≠ '\n' := by
  intro fuel
  induction fuel with
  | zero =>
    intro n c hc
    have : c = digitCharOf n := by simpa [natDigitsFuel] using hc
    exact this ▸ digitCharOf_ne n
  | succ f ih =>
    intro n c hc
    simp only [natDigitsFuel] at hc
    split at hc
    · have : c = digitCharOf n := by simpa using hc
      exact this ▸ digitCharOf_ne n
    · rcases List.mem_append.mp hc with hc | hc
      · exact ih (n / 10) c hc
      · have : c = digitCharOf (n % 10) := by simpa using hc
        exact this ▸ digitCharOf_ne (n % 10)

theorem natDigits_ne {n : Nat} {c : Char} (hc : c ∈ natDigits n) :
    c ≠ ':' ∧ c ≠ '\n' :=
  natDigitsFuel_ne n n c hc

theorem length_dropWhile_le (p : Char → Bool) (l : List Char) :
    (l.dropWhile p).length ≤ l.length := by
  induction l with
  | nil => simp
  | cons c t ih =>
    by_cases h : p c
    · simp only [List.dropWhile_cons, h, if_true]
      exact le_trans ih (by simp)
    · simp only [Bool.not_eq_true] at h
      simp [List.dropWhile_cons, h]

theorem head_not_space_of_dropWhile_fix {c : Char} {t : List Char}
    (h : (c :: t).dropWhile isPySpace = c :: t) : isPySpace c = false := by
  cases hc : isPySpace c
  · rfl
  · rw [List.dropWhile_cons, hc, if_pos rfl] at h
    have := length_dropWhile_le isPySpace t
    rw [h] at this
    simp at this

theorem dropWhile_append_fix {x : List Char} (y : List Char)
    (hx : x.dropWhile isPySpace = x) (hne : x ≠ []) :
    (x ++ y).dropWhile isPySpace = x ++ y := by
  cases x with
  | nil => exact absurd rfl hne
  | cons c t =>
    have hc : isPySpace c = false := head_not_space_of_dropWhile_fix hx
    simp [List.dropWhile_cons, hc]

theorem stripL_eq_self {l : List Char} (h1 : l.dropWhile isPySpace = l)
    (h2 : l.reverse.dropWhile isPySpace = l.reverse) : stripL l = l := by
  unfold stripL
  rw [h1, h2, List.reverse_reverse]

theorem optionLinesStr_data : ∀ (os : List String) (j : Nat),
    (optionLinesStr j os).data = linesData (optLinesL j os) := by
  intro os
  induction os with
  | nil => intro j; rfl
  | cons o t ih =>
    intro j
    simp only [optionLinesStr, optLinesL, linesData, List.foldr_cons]
    rw [String.data_append, String.data_append, String.data_append, String.data_append]
    rw [ih (j + 1)]
    simp [linesData, List.append_assoc]

theorem foldr_linesData (ls : List (List Char)) (init : List Char) :
    List.foldr (fun l acc => l ++ '\n' :: acc) init ls = linesData ls ++ init := by
  induction ls with
  | nil => rfl
  | cons l t ih => simp [linesData, ih, List.append_assoc]

theorem formatQuestionBlock_data (i : Nat) (q : OQuestion) :
    (formatQuestionBlock i q).data = linesData (blockRawLines i q) := by
  unfold formatQuestionBlock blockRawLines
  repeat rw [String.data_append]
  rw [optionLinesStr_data]
  simp only [linesData, List.foldr_cons, List.foldr_append, natToStr]
  conv_rhs => rw [foldr_linesData]
  simp [linesData, List.append_assoc]

theorem trimmed_head_fix {o : String} (ht : Trimmed o) :
    o.data.dropWhile isPySpace = o.data := ht.1

theorem trimmed_rev_fix {o : String} (ht : Trimmed o) :
    o.data.reverse.dropWhile isPySpace = o.data.reverse := ht.2

theorem stripL_front_rest {c : Char} {t : List Char} (hc : isPySpace c = false) :
    stripL (c :: t) = ((c :: t).reverse.dropWhile isPySpace).reverse := by
  unfold stripL
  rw [List.dropWhile_cons, hc]
  simp

theorem stripL_optline {c : Char} {o : String} (hc : isPySpace c = false)
    (hne : o.data ≠ []) (ht : Trimmed o) :
    stripL ([c, ')', ' '] ++ o.data) = [c, ')', ' '] ++ o.data := by
  apply stripL_eq_self
  · exact dropWhile_append_fix o.data (by simp [List.dropWhile_cons, hc]) (by simp)
  · rw [List.reverse_append]
    exact dropWhile_append_fix _ (trimmed_rev_fix ht)
      (by simpa using hne)

theorem stripL_caline {ca : String}
    (hca : ca = "a" ∨ ca = "b" ∨ ca = "c" ∨ ca = "d") :
    stripL ("Correct Answer: ".data ++ ca.data) =
      "Correct Answer: ".data ++ ca.data := by
  rcases hca with h | h | h | h <;> rw [h] <;> rfl

theorem stripL_qline (i : Nat) {q : OQuestion} (ht : Trimmed q.question) :
    stripL ("Question ".data ++ natDigits i ++ [':', ' '] ++ q.question.data) =
      qlineS i q := by
  unfold qlineS
  by_cases hq : q.question.data = []
  · rw [hq, if_pos rfl, List.append_nil]
    have hshape : "Question ".data ++ natDigits i ++ [':', ' '] =
        'Q' :: ("uestion ".data ++ natDigits i ++ [':', ' ']) := rfl
    rw [hshape, stripL_front_rest (by decide)]
    have hrev : ('Q' :: ("uestion ".data ++ natDigits i ++ [':', ' '])).reverse =
        ' ' :: ':' :: (natDigits i).reverse ++ "uestion ".data.reverse ++ ['Q'] := by
      simp [List.reverse_append, List.append_assoc]
    rw [hrev]
    have hdrop : (' ' :: ':' :: (natDigits i).reverse ++ "uestion ".data.reverse
          ++ ['Q']).dropWhile isPySpace =
        ':' :: (natDigits i).reverse ++ "uestion ".data.reverse ++ ['Q'] := by
      simp [List.dropWhile_cons, show isPySpace ' ' = true from rfl,
        show isPySpace ':' = false from rfl]
    rw [hdrop]
    simp [List.reverse_append, List.append_assoc]
  · rw [if_neg hq]
    apply stripL_eq_self
    · have hshape : "Question ".data ++ natDigits i ++ [':', ' '] ++ q.question.data =
          'Q' :: ("uestion ".data ++ natDigits i ++ [':', ' '] ++ q.question.data) := rfl
      rw [hshape, List.dropWhile_cons]
      simp [show isPySpace 'Q' = false from rfl]
    · rw [List.reverse_append]
      exact dropWhile_append_fix _ (trimmed_rev_fix ht) (by simpa using hq)

theorem map_strip_optLines : ∀ (os : List String) (j : Nat), j + os.length ≤ 4 →
    (∀ o ∈ os, o.data ≠ [] ∧ Trimmed o ∧ NoNl o) →
    (optLinesL j os).map stripL = optLinesL j os := by
  intro os
  induction os with
  | nil => intro j _ _; rfl
  | cons o t ih =>
    intro j hj hprops
    obtain ⟨hne, htr, _⟩ := hprops o (List.mem_cons_self o t)
    have hj3 : j ≤ 3 := by simp at hj; omega
    have hletter : isPySpace (Char.ofNat (97 + j)) = false := by
      interval_cases j <;> decide
    simp only [optLinesL, List.map_cons]
    rw [stripL_optline hletter hne htr]
    rw [ih (j + 1) (by simp at hj ⊢; omega)
      (fun o' ho' => hprops o' (List.mem_cons_of_mem o ho'))]

theorem optLines_noNl : ∀ (os : List String) (j : Nat), j + os.length ≤ 4 →
    (∀ o ∈ os, o.data ≠ [] ∧ Trimmed o ∧ NoNl o) →
    ∀ l ∈ optLinesL j os, '\n' ∉ l := by
  intro os
  induction os with
  | nil => intro j _ _ l hl; cases hl
  | cons o t ih =>
    intro j hj hprops l hl
    rcases List.mem_cons.mp hl with hl | hl
    · subst hl
      intro hmem
      have hj3 : j ≤ 3 := by simp at hj; omega
      rcases List.mem_append.mp hmem with hm | hm
      · revert hm
        interval_cases j <;> decide
      · exact (hprops o (List.mem_cons_self o t)).2.2 hm
    · exact ih (j + 1) (by simp at hj ⊢; omega)
        (fun o' ho' => hprops o' (List.mem_cons_of_mem o ho')) l hl

theorem blockRaw_noNl {q : OQuestion} (hq : RoundTrippable q) (i : Nat) :
    ∀ l ∈ blockRawLines i q, '\n' ∉ l := by
  obtain ⟨htr, hnl, hne, hlen, hopts, hca, hidx⟩ := hq
  intro l hl hmem
  rcases List.mem_cons.mp hl with hl | hl
  · subst hl
    rcases List.mem_append.mp hmem with hm | hm
    · rcases List.mem_append.mp hm with hm | hm
      · rcases List.mem_append.mp hm with hm | hm
        · exact absurd hm (by decide)
        · exact (natDigits_ne hm).2 rfl
      · exact absurd hm (by decide)
    · exact hnl hm
  · rcases List.mem_append.mp hl with hl | hl
    · exact optLines_noNl q.options 0 (by simpa using hlen) hopts l hl hmem
    · have : l = "Correct Answer: ".data ++ q.correct_answer.data := by simpa using hl
      subst this
      rcases List.mem_append.mp hmem with hm | hm
      · exact absurd hm (by decide)
      · rcases hca with h | h | h | h <;> rw [h] at hm <;> exact absurd hm (by decide)

theorem map_strip_block {q : OQuestion} (hq : RoundTrippable q) (i : Nat) :
    (blockRawLines i q).map stripL = stripBlock i q := by
  obtain ⟨htr, hnl, hne, hlen, hopts, hca, hidx⟩ := hq
  unfold blockRawLines stripBlock
  simp only [List.map_cons, List.map_append]
  rw [stripL_qline i htr]
  rw [map_strip_optLines q.options 0 (by simpa using hlen) hopts]
  simp only [List.map_cons, List.map_nil]
  rw [stripL_caline hca]

theorem optLines_ne_nil : ∀ (os : List String) (j : Nat) (l : List Char),
    l ∈ optLinesL j os → l ≠ [] := by
  intro os
  induction os with
  | nil => intro j l hl; cases hl
  | cons o t ih =>
    intro j l hl
    rcases List.mem_cons.mp hl with hl | hl
    · subst hl; simp
    · exact ih (j + 1) l hl

theorem stripBlock_ne_nil {q : OQuestion} (i : Nat) :
    ∀ l ∈ stripBlock i q, l ≠ [] := by
  intro l hl
  rcases List.mem_cons.mp hl with hl | hl
  · subst hl
    unfold qlineS
    split <;> simp
  · rcases List.mem_append.mp hl with hl | hl
    · exact optLines_ne_nil q.options 0 l hl
    · have hca : l = "Correct Answer: ".data ++ q.correct_answer.data := by simpa using hl
      subst hca
      simp

theorem filter_ne_nil_self {ls : List (List Char)} (h : ∀ l ∈ ls, l ≠ []) :
    ls.filter (fun l => !l.isEmpty) = ls := by
  apply List.filter_eq_self.mpr
  intro l hl
  simpa using h l hl

theorem joinfmt : ∀ (qs : List OQuestion) (k : Nat), (∀ q ∈ qs, RoundTrippable q) →
    ((splitNlL ((joinNlStr ((qs.enumFrom k).map
        (fun p => formatQuestionBlock (p.1 + 1) p.2))).data)).map stripL).filter
      (fun l => !l.isEmpty) = blockCat (k + 1) qs := by
  intro qs
  induction qs with
  | nil => intro k _; rfl
  | cons q rest ih =>
    intro k h
    have hq : RoundTrippable q := h q (List.mem_cons_self q rest)
    have hrest : ∀ q' ∈ rest, RoundTrippable q' :=
      fun q' hq' => h q' (List.mem_cons_of_mem q hq')
    have hnl : ∀ l ∈ blockRawLines (k + 1) q, '\n' ∉ l := blockRaw_noNl hq (k + 1)
    cases rest with
    | nil =>
      simp only [List.enumFrom_cons, List.map_cons, List.map_nil, joinNlStr]
      rw [formatQuestionBlock_data]
      rw [show linesData (blockRawLines (k + 1) q) =
        linesData (blockRawLines (k + 1) q) ++ [] from (List.append_nil _).symm]
      rw [splitNl_linesData _ [] hnl]
      rw [List.map_append, map_strip_block hq (k + 1)]
      rw [List.filter_append]
      rw [filter_ne_nil_self (stripBlock_ne_nil (k + 1))]
      simp [splitNlL, splitChar, stripL, blockCat]
    | cons r rs =>
      have ih' := ih (k + 1) hrest
      simp only [List.enumFrom_cons, List.map_cons, joinNlStr] at ih' ⊢
      have hdata : ((formatQuestionBlock (k + 1) q ++ "\n" ++
          joinNlStr (formatQuestionBlock (k + 1 + 1) r ::
            (List.enumFrom (k + 1 + 1) rs).map
              (fun p => formatQuestionBlock (p.1 + 1) p.2))).data) =
          linesData (blockRawLines (k + 1) q) ++ '\n' ::
            (joinNlStr (formatQuestionBlock (k + 1 + 1) r ::
              (List.enumFrom (k + 1 + 1) rs).map
                (fun p => formatQuestionBlock (p.1 + 1) p.2))).data := by
        rw [String.data_append, String.data_append, formatQuestionBlock_data]
        simp [List.append_assoc]
      rw [hdata]
      rw [splitNl_linesData _ _ hnl]
      have hsplit : splitNlL ('\n' :: (joinNlStr (formatQuestionBlock (k + 1 + 1) r ::
          (List.enumFrom (k + 1 + 1) rs).map
            (fun p => formatQuestionBlock (p.1 + 1) p.2))).data) =
          [] :: splitNlL ((joinNlStr (formatQuestionBlock (k + 1 + 1) r ::
            (List.enumFrom (k + 1 + 1) rs).map
              (fun p => formatQuestionBlock (p.1 + 1) p.2))).data) := by
        simp [splitNlL, splitChar]
      rw [hsplit]
      rw [List.map_append, map_strip_block hq (k + 1)]
      rw [List.filter_append]
      rw [filter_ne_nil_self (stripBlock_ne_nil (k + 1))]
      simp only [List.map_cons]
      rw [show stripL [] = [] from rfl]
      rw [List.filter_cons]
      simp only [List.isEmpty_nil, Bool.not_true, Bool.false_eq_true, if_false]
      rw [ih']
      rfl

theorem appLines_format (qs : List OQuestion) (h : ∀ q ∈ qs, RoundTrippable q) :
    appLines (format_test qs) = blockCat 1 qs := by
  unfold appLines format_test
  have := joinfmt qs 0 h
  simpa [List.enum] using this

theorem lowerL_append (a b : List Char) : lowerL (a ++ b) = lowerL a ++ lowerL b :=
  List.map_append _ a b

theorem isQLine_qlineS (i : Nat) (q : OQuestion) : isQLine (qlineS i q) = true := by
  unfold isQLine qlineS
  split
  · rw [Bool.and_eq_true]
    constructor
    · rw [List.append_assoc, lowerL_append]
      rw [show lowerL ("Question ".data) = "question ".data by decide]
      exact startsL_append_left _ _ _ (by decide)
    · simp [List.any_append]
  · rw [Bool.and_eq_true]
    constructor
    · rw [List.append_assoc, List.append_assoc, lowerL_append]
      rw [show lowerL ("Question ".data) = "question ".data by decide]
      exact startsL_append_left _ _ _ (by decide)
    · simp [List.any_append]

theorem afterFirstColon_qlineS (i : Nat) {q : OQuestion} (ht : Trimmed q.question) :
    ⟨stripL (afterFirstChar ':' (qlineS i q))⟩ = q.question := by
  have hnc : ':' ∉ "Question ".data ++ natDigits i := by
    intro hm
    rcases List.mem_append.mp hm with hm | hm
    · exact absurd hm (by decide)
    · exact (natDigits_ne hm).1 rfl
  unfold qlineS
  split
  · rename_i hq
    rw [afterFirstChar_append [':'] hnc]
    rw [show afterFirstChar ':' [':'] = [] from rfl]
    rw [show stripL [] = [] from rfl]
    cases hqq : q.question with
    | mk d =>
      rw [hqq] at hq
      simp only at hq
      rw [hq]
  · rename_i hq
    rw [List.append_assoc ("Question ".data ++ natDigits i) [':', ' '] q.question.data]
    rw [afterFirstChar_append ([':', ' '] ++ q.question.data) hnc]
    rw [show ∀ z, afterFirstChar ':' ([':', ' '] ++ z) = ' ' :: z from fun z => rfl]
    have hstrip : stripL (' ' :: q.question.data) = q.question.data := by
      unfold stripL
      rw [List.dropWhile_cons]
      rw [show isPySpace ' ' = true from rfl, if_pos rfl]
      rw [trimmed_head_fix ht, trimmed_rev_fix ht, List.reverse_reverse]
    rw [hstrip]

theorem step_qline (i : Nat) {q : OQuestion} (ht : Trimmed q.question)
    (out : List PQuestion) (cur : Option PQuestion) :
    appStep (out, cur) (qlineS i q) =
      .ok (appFlushMid out cur, some ⟨q.question, [], none⟩) := by
  unfold appStep
  rw [if_pos (isQLine_qlineS i q)]
  rw [afterFirstColon_qlineS i ht]

theorem step_optline {j : Nat} (hj : j ≤ 3) {o : String} (_hne : o.data ≠ [])
    (ht : Trimmed o) (out : List PQuestion) (qrec : PQuestion) :
    appStep (out, some qrec) (Char.ofNat (97 + j) :: ')' :: ' ' :: o.data) =
      .ok (out, some { qrec with options := qrec.options ++ [o] }) := by
  have hnq : isQLine (Char.ofNat (97 + j) :: ')' :: ' ' :: o.data) = false := by
    unfold isQLine
    have hhead : lowerL (Char.ofNat (97 + j) :: ')' :: ' ' :: o.data) =
        (Char.ofNat (97 + j)).toLower :: lowerL (')' :: ' ' :: o.data) := rfl
    rw [hhead]
    rw [startsL_head_ne _ _ (by interval_cases j <;> decide)]
    rfl
  have hopt : isOptLine (Char.ofNat (97 + j) :: ')' :: ' ' :: o.data) = true := by
    unfold isOptLine
    have h1 : decide (2 < (Char.ofNat (97 + j) :: ')' :: ' ' :: o.data).length) = true := by
      simp
    have h2 : isAbcd ((Char.ofNat (97 + j) :: ')' :: ' ' :: o.data).headD ' ').toLower = true := by
      rw [show (Char.ofNat (97 + j) :: ')' :: ' ' :: o.data).headD ' ' =
        Char.ofNat (97 + j) from rfl]
      interval_cases j <;> decide
    have h3 : (Char.ofNat (97 + j) :: ')' :: ' ' :: o.data).getD 1 ' ' = ')' := rfl
    rw [h1, h2, h3]
    rfl
  unfold appStep
  rw [hnq]
  simp only [Bool.false_eq_true, if_false]
  rw [hopt]
  simp only [if_true]
  have hdrop : (Char.ofNat (97 + j) :: ')' :: ' ' :: o.data).drop 3 = o.data := rfl
  rw [hdrop, stripL_eq_self (trimmed_head_fix ht) (trimmed_rev_fix ht)]

theorem step_caline {ca : String}
    (hca : ca = "a" ∨ ca = "b" ∨ ca = "c" ∨ ca = "d")
    (out : List PQuestion) (qrec : PQuestion)
    (hidx : caIdx ca < qrec.options.length) :
    appStep (out, some qrec) ("Correct Answer: ".data ++ ca.data) =
      .ok (out, some { qrec with
        correct_answer := some (qrec.options.getD (caIdx ca) "") }) := by
  have hnq : isQLine ("Correct Answer: ".data ++ ca.data) = false := by
    unfold isQLine
    have hhead : lowerL ("Correct Answer: ".data ++ ca.data) =
        'c' :: lowerL ("orrect Answer: ".data ++ ca.data) := rfl
    rw [hhead]
    rw [startsL_head_ne _ _ (by decide)]
    rfl
  have hnopt : isOptLine ("Correct Answer: ".data ++ ca.data) = false := by
    unfold isOptLine
    have hgd : ("Correct Answer: ".data ++ ca.data).getD 1 ' ' = 'o' := rfl
    rw [hgd]
    simp
  have hsub : hasSubL ("correct answer:".data)
      (lowerL ("Correct Answer: ".data ++ ca.data)) = true := by
    apply hasSubL_of_startsL
    rw [lowerL_append]
    rw [show lowerL ("Correct Answer: ".data) = "correct answer: ".data by decide]
    exact startsL_append_left _ _ _ (by decide)
  unfold appStep
  rw [hnq]
  simp only [Bool.false_eq_true, if_false]
  rw [hnopt]
  simp only [Bool.false_eq_true, if_false]
  rw [hsub]
  simp only [if_true]
  unfold appCALine
  have hseg : lastSeg ':' ("Correct Answer: ".data ++ ca.data) = ' ' :: ca.data := by
    unfold lastSeg
    rw [show ("Correct Answer: ".data ++ ca.data) =
      "Correct Answer".data ++ ':' :: (' ' :: ca.data) from rfl]
    rw [splitChar_append_sep _ (by decide)]
    rw [splitChar_no_sep (by
      rcases hca with h | h | h | h <;> rw [h] <;> decide)]
    rfl
  rw [hseg]
  rcases hca with h | h | h | h <;> subst h
  · rw [show lowerL (stripL (' ' :: ("a" : String).data)) = ['a'] from rfl]
    simp only [show (!(['a'] : List Char).isEmpty && hasSubL ['a'] ("abcd".data)) = true
      from rfl, if_true]
    rw [if_pos (by simpa [caIdx] using hidx)]
    rfl
  · rw [show lowerL (stripL (' ' :: ("b" : String).data)) = ['b'] from rfl]
    simp only [show (!(['b'] : List Char).isEmpty && hasSubL ['b'] ("abcd".data)) = true
      from rfl, if_true]
    rw [if_pos (by simpa [caIdx] using hidx)]
    rfl
  · rw [show lowerL (stripL (' ' :: ("c" : String).data)) = ['c'] from rfl]
    simp only [show (!(['c'] : List Char).isEmpty && hasSubL ['c'] ("abcd".data)) = true
      from rfl, if_true]
    rw [if_pos (by simpa [caIdx] using hidx)]
    rfl
  · rw [show lowerL (stripL (' ' :: ("d" : String).data)) = ['d'] from rfl]
    simp only [show (!(['d'] : List Char).isEmpty && hasSubL ['d'] ("abcd".data)) = true
      from rfl, if_true]
    rw [if_pos (by simpa [caIdx] using hidx)]
    rfl

theorem appFold_cons_ok {st st' : List PQuestion × Option PQuestion}
    {l : List Char} {ls : List (List Char)} (h : appStep st l = .ok st') :
    appFold st (l :: ls) = appFold st' ls := by
  simp only [appFold, h]

theorem opts_fold : ∀ (os : List String) (j : Nat), j + os.length ≤ 4 →
    (∀ o ∈ os, o.data ≠ [] ∧ Trimmed o ∧ NoNl o) →
    ∀ (out : List PQuestion) (qrec : PQuestion) (rest : List (List Char)),
      appFold (out, some qrec) (optLinesL j os ++ rest) =
        appFold (out, some { qrec with options := qrec.options ++ os }) rest := by
  intro os
  induction os with
  | nil =>
    intro j _ _ out qrec rest
    simp only [optLinesL, List.nil_append]
    rw [show qrec.options ++ ([] : List String) = qrec.options from List.append_nil _]
  | cons o t ih =>
    intro j hj hp out qrec rest
    have hle : j ≤ 3 := by simp at hj; omega
    obtain ⟨hne, htr, _⟩ := hp o (List.mem_cons_self o t)
    rw [show optLinesL j (o :: t) ++ rest =
      (Char.ofNat (97 + j) :: ')' :: ' ' :: o.data) :: (optLinesL (j + 1) t ++ rest) from by
        simp [optLinesL]]
    rw [appFold_cons_ok (step_optline hle hne htr out qrec)]
    rw [ih (j + 1) (by simp at hj ⊢; omega)
      (fun o' ho' => hp o' (List.mem_cons_of_mem o ho')) out _ rest]
    have hassoc : (qrec.options ++ [o]) ++ t = qrec.options ++ (o :: t) := by
      simp
    rw [hassoc]

theorem block_process (i : Nat) {q : OQuestion} (hq : RoundTrippable q)
    (out : List PQuestion) (cur : Option PQuestion) (rest : List (List Char)) :
    appFold (out, cur) (stripBlock i q ++ rest) =
      appFold (appFlushMid out cur, some (rtQuestion q)) rest := by
  obtain ⟨htr, hnl, hne, hlen, hopts, hca, hidx⟩ := hq
  rw [show stripBlock i q ++ rest = qlineS i q :: (optLinesL 0 q.options ++
      ("Correct Answer: ".data ++ q.correct_answer.data) :: rest) from by
    simp [stripBlock]]
  rw [appFold_cons_ok (step_qline i htr out cur)]
  rw [opts_fold q.options 0 (by simpa using hlen) hopts]
  rw [appFold_cons_ok (step_caline hca _ _ (by simpa using hidx))]
  congr 1

theorem blocks_parse : ∀ (qs : List OQuestion) (k : Nat) (out : List PQuestion)
    (cur : Option PQuestion),
    (∀ q ∈ qs, RoundTrippable q) →
    (cur = none ∨ ∃ q', RoundTrippable q' ∧ cur = some (rtQuestion q')) →
    appFinish (appFold (out, cur) (blockCat k qs)) =
      .ok (out ++ appFlushMid [] cur ++ qs.map rtQuestion) := by
  intro qs
  induction qs with
  | nil =>
    intro k out cur _ hcur
    simp only [blockCat, appFold, appFinish]
    rcases hcur with h | ⟨q', hq', h⟩
    · subst h
      simp [appFlushMid]
    · subst h
      obtain ⟨htr, hnl, hne, hlen, hopts, hca, hidx⟩ := hq'
      have hopt_ne : ((rtQuestion q').options).isEmpty = false := by
        simp only [rtQuestion, List.isEmpty_eq_false, ne_eq]
        exact hne
      have hmem := getD_mem_of_lt hidx ""
      have hod := (hopts _ hmem).1
      have hgd : q'.options.getD (caIdx q'.correct_answer) "" ≠ "" := by
        intro hcon
        exact hod (by rw [hcon])
      have hcat : caTruthy (rtQuestion q').correct_answer = true := by
        simp only [caTruthy, rtQuestion]
        simpa using hgd
      simp [appFlushMid, hopt_ne, hcat]
  | cons q rest ih =>
    intro k out cur h hcur
    have hq : RoundTrippable q := h q (List.mem_cons_self q rest)
    have hrest : ∀ q' ∈ rest, RoundTrippable q' :=
      fun q' hq' => h q' (List.mem_cons_of_mem q hq')
    simp only [blockCat]
    rw [block_process k hq out cur (blockCat (k + 1) rest)]
    rw [ih (k + 1) (appFlushMid out cur) (some (rtQuestion q)) hrest
      (Or.inr ⟨q, hq, rfl⟩)]
    have hsplit : appFlushMid out cur = out ++ appFlushMid [] cur := by
      cases cur with
      | none => simp [appFlushMid]
      | some c =>
        by_cases hc : c.options.isEmpty <;> simp [appFlushMid, hc]
    have hflush : appFlushMid [] (some (rtQuestion q)) = [rtQuestion q] := by
      have : ((rtQuestion q).options).isEmpty = false := by
        simp [rtQuestion]
        exact hq.2.2.1
      simp [appFlushMid, this]
    rw [hsplit, hflush]
    simp [List.append_assoc]

/-- C10 amended: serialize-then-parse is lossless exactly for
round-trippable question lists — each question with trimmed, newline-free
text, 1–4 trimmed non-empty newline-free options, and a lowercase answer
letter `a`–`d` indexing an existing option (the shape both generator paths
emit).  `parse_test_output` then recovers the same number of questions, the
same texts and options, and resolves each `correct_answer` to the option
text at the serialized letter's index.  Lists outside this shape (e.g. with
an empty options list) are not recovered. -/
theorem c10_amended_round_trip (qs : List OQuestion)
    (h : ∀ q ∈ qs, RoundTrippable q) :
    parse_test_output (format_test qs) = .ok (qs.map rtQuestion) := by
  unfold parse_test_output
  rw [appLines_format qs h]
  have hmain := blocks_parse qs 1 [] none h (Or.inl rfl)
  simpa [appFlushMid] using hmain

/-- C10 amended witness: a concrete two-option question round-trips, with
the parsed `correct_answer` resolved from the letter `"b"` to the second
option text. -/
theorem c10_amended_round_trip_witness :
    RoundTrippable ⟨"Q1?", ["x1", "y1"], "b", "s1"⟩ ∧
      parse_test_output (format_test [⟨"Q1?", ["x1", "y1"], "b", "s1"⟩]) =
        .ok [⟨"Q1?", ["x1", "y1"], some "y1"⟩] := by
  refine ⟨by decide, ?_⟩
  rw [c10_amended_round_trip [⟨"Q1?", ["x1", "y1"], "b", "s1"⟩] (by decide)]
  rfl
